import Mathlib

/-!
Verification of `penaltymodel/classes/binary_quadratic_model.py`
(class `BinaryQuadraticModel`) against its natural-language specification.

Python dicts are embedded as association lists (`Dict K V := List (K × V)`)
with insertion-order semantics: inserting at an existing key updates the value
in place, inserting at a fresh key appends at the end.  Biases are embedded as
rationals (the Python code is agnostic to the numeric type; over `ℚ` the
energy computations are exact).  Methods that can raise return `Except String`
with the raising branch translated at the statement where Python raises.
-/

set_option autoImplicit false

namespace PenaltyModel

universe u v w

variable {K : Type u} {V : Type v} {A : Type w}

/-- Modelled from the spec: the `Vartype` enumeration (file
`penaltymodel/classes/vartypes.py` is not part of the provided sources).
Per §3 of the spec it is a closed enumeration with exactly two members,
`SPIN` (domain {-1, +1}) and `BINARY` (domain {0, 1}).  All claims use
already-resolved vartype values, so the string/set resolution logic is not
modelled. -/
inductive Vartype where
  | SPIN
  | BINARY
deriving DecidableEq, Repr

/-- A Python dict, embedded as an association list in insertion order. -/
abbrev Dict (K : Type u) (V : Type v) := List (K × V)

/-- Python `d[k]` / `d.get(k)`: value stored at the (unique, in real dicts)
occurrence of key `k`; `none` when absent (a `KeyError` in Python). -/
def dget [DecidableEq K] : Dict K V → K → Option V
  | [], _ => none
  | (k', v') :: rest, k => if k = k' then some v' else dget rest k

/-- Python `k in d`. -/
def dhas [DecidableEq K] (d : Dict K V) (k : K) : Bool := (dget d k).isSome

/-- Python `d[k] = v`: update in place when the key is present, append
otherwise (CPython dicts preserve insertion order). -/
def dinsert [DecidableEq K] : Dict K V → K → V → Dict K V
  | [], k, v => [(k, v)]
  | (k', v') :: rest, k, v =>
      if k = k' then (k, v) :: rest else (k', v') :: dinsert rest k v

/-- Python `d[k] = f(d[k])` (e.g. `d[k] += c`); a no-op when the key is
absent (Python would raise `KeyError`, which never happens at the call sites
verified here because the key is always present). -/
def dmodify [DecidableEq K] : Dict K V → K → (V → V) → Dict K V
  | [], _, _ => []
  | (k', v') :: rest, k, f =>
      if k = k' then (k', f v') :: rest else (k', v') :: dmodify rest k f

/-- The keys of a dict, in insertion order (Python `list(d)`). -/
def dkeys (d : Dict K V) : List K := d.map Prod.fst

/-- The values of a dict, in insertion order (Python `d.values()`). -/
def dvals (d : Dict K V) : List V := d.map Prod.snd

/-- Python dict equality `d1 == d2` relative to a value comparison:
order-insensitive, same keys and equal values at each key. -/
def dictEqBy [DecidableEq K] (veq : V → V → Bool) (d₁ d₂ : Dict K V) : Bool :=
  d₁.all (fun p => match dget d₂ p.1 with
    | some w => veq p.2 w
    | none => false) &&
  d₂.all (fun p => match dget d₁ p.1 with
    | some w => veq p.2 w
    | none => false)

/-- Python dict equality for decidably-equal values. -/
def dictEq [DecidableEq K] [DecidableEq V] (d₁ d₂ : Dict K V) : Bool :=
  dictEqBy (fun a b => decide (a = b)) d₁ d₂

/-- Python `s.add(x)` on a set represented as its insertion-ordered elements. -/
def setInsert [DecidableEq K] (s : List K) (x : K) : List K :=
  if x ∈ s then s else s ++ [x]

/-- A value stored in the `adj` attribute for one variable.  The constructor
(lines 107-128) stores a dict from neighbour to bias; `relabel_variables`
(line 236) rebuilds each entry with a *set* comprehension
`{mapping[v] for v in neighbours}`, so after relabeling the entries are
Python sets of neighbour labels.  Both shapes can occur at runtime, hence the
sum type. -/
inductive Nbrs (K : Type u) where
  | dict : Dict K ℚ → Nbrs K
  | set : List K → Nbrs K
deriving DecidableEq

/-- Iterating a `Nbrs` value in Python (`for v in neighbours`): iterating a
dict yields its keys, iterating a set yields its elements. -/
def Nbrs.iter : Nbrs K → List K
  | .dict d => dkeys d
  | .set s => s

/-- The `BinaryQuadraticModel` object state: attributes `linear`, `quadratic`,
`adj`, `offset`, `vartype`. -/
structure BQM (K : Type u) where
  linear : Dict K ℚ
  quadratic : Dict (K × K) ℚ
  adj : Dict K (Nbrs K)
  offset : ℚ
  vartype : Vartype
deriving DecidableEq

/-- One half of the adjacency-building step in `__init__` (lines 112-119 for
the `u` side, lines 121-128 for the `v` side):
if `u in adj`: raise if `v in adj[u]` else `adj[u][v] = bias`;
else `adj[u] = {v: bias}`. -/
def adjInsertHalf [DecidableEq K] (adj : Dict K (Dict K ℚ)) (u v : K) (bias : ℚ) :
    Except String (Dict K (Dict K ℚ)) :=
  match dget adj u with
  | some nbrs =>
      if (dget nbrs v).isSome then
        .error "quadratic must be upper triangular"
      else
        .ok (dinsert adj u (dinsert nbrs v bias))
  | none => .ok (dinsert adj u [(v, bias)])

/-- The adjacency-building loop of `__init__` (lines 107-128): for each
`((u, v), bias)` in `quadratic`, raise on a self-loop, then insert the bias
on the `u` side and the `v` side (raising when the reverse orientation is
already present). -/
def buildAdj [DecidableEq K] :
    List ((K × K) × ℚ) → Dict K (Dict K ℚ) → Except String (Dict K (Dict K ℚ))
  | [], adj => .ok adj
  | ((u, v), bias) :: rest, adj =>
      if u = v then .error "bias in quadratic is a linear bias"
      else
        match adjInsertHalf adj u v bias with
        | .error e => .error e
        | .ok adj₁ =>
            match adjInsertHalf adj₁ v u bias with
            | .error e => .error e
            | .ok adj₂ => buildAdj rest adj₂

/-- Wrap a freshly built adjacency as stored on the object: every entry made
by the constructor is a dict. -/
def wrapAdj (a : Dict K (Dict K ℚ)) : Dict K (Nbrs K) :=
  a.map (fun p => (p.1, Nbrs.dict p.2))

/-- `__init__` (lines 69-131), with the vartype already resolved (all claims
presuppose a resolvable vartype).  `quadratic? = none` models a non-dict
`quadratic` argument (the `isinstance` check at line 96); `linear` being a
dict is enforced by the type.  Checks, in source order: `quadratic` is a
dict; every endpoint of every quadratic key is in `linear`; then the
adjacency loop rejects self-loops and doubly-oriented pairs.  On any failure
Python raises and no object reaches the caller, hence the `Except` result. -/
def init [DecidableEq K] (linear : Dict K ℚ) (quadratic? : Option (Dict (K × K) ℚ))
    (offset : ℚ) (vartype : Vartype) : Except String (BQM K) :=
  match quadratic? with
  | none => .error "expected quadratic to be a dict"
  | some quadratic =>
      if quadratic.all (fun p => dhas linear p.1.1 && dhas linear p.1.2) then
        match buildAdj quadratic [] with
        | .ok a => .ok ⟨linear, quadratic, wrapAdj a, offset, vartype⟩
        | .error e => .error e
      else .error "each u, v in quadratic must also be in linear"

/-- Linear part of `energy` (line 218): `sum(linear[v] * sample[v] for v in linear)`. -/
def linSum (d : Dict K ℚ) (s : K → ℚ) : ℚ :=
  (d.map (fun p => p.2 * s p.1)).sum

/-- Quadratic part of `energy` (line 219):
`sum(quadratic[(u, v)] * sample[u] * sample[v] for u, v in quadratic)`. -/
def quadSum (q : Dict (K × K) ℚ) (s : K → ℚ) : ℚ :=
  (q.map (fun p => p.2 * s p.1.1 * s p.1.2)).sum

/-- `energy` (lines 203-220).  The sample is total here; all claims that
mention `energy` supply a value for every variable. -/
def energy (m : BQM K) (sample : K → ℚ) : ℚ :=
  m.offset + linSum m.linear sample + quadSum m.quadratic sample

/-- The loop of `_spin_to_binary` (lines 308-314): for each `((u, v), bias)`
in `quadratic`, skip zero biases; otherwise `new_quadratic[(u,v)] = 4*bias`,
`new_linear[u] -= 2*bias`, `new_linear[v] -= 2*bias`. -/
def spinToBinaryLoop [DecidableEq K] :
    List ((K × K) × ℚ) → Dict K ℚ × Dict (K × K) ℚ → Dict K ℚ × Dict (K × K) ℚ
  | [], acc => acc
  | ((u, v), bias) :: rest, (nl, nq) =>
      if bias = 0 then spinToBinaryLoop rest (nl, nq)
      else
        spinToBinaryLoop rest
          (dmodify (dmodify nl u (fun c => c - 2 * bias)) v (fun c => c - 2 * bias),
           dinsert nq (u, v) (4 * bias))

/-- `_spin_to_binary` (lines 297-319), as a pure function of the attributes it
reads: `new_linear` starts as `{v: 2*bias}`, the loop redistributes the
quadratic biases, and the offset becomes
`offset + sum(quadratic.values()) - sum(linear.values())`. -/
def spin_to_binary [DecidableEq K] (linear : Dict K ℚ) (quadratic : Dict (K × K) ℚ)
    (offset : ℚ) : Dict K ℚ × Dict (K × K) ℚ × ℚ :=
  let nl0 : Dict K ℚ := linear.map (fun p => (p.1, 2 * p.2))
  let r := spinToBinaryLoop quadratic (nl0, [])
  (r.1, r.2, offset + (dvals quadratic).sum - (dvals linear).sum)

/-- The quadratic loop of `_binary_to_spin` (lines 337-345): for each
`((u, v), bias)`, `J[(u,v)] = bias/4` when `bias ≠ 0`; `h[u] += bias/4` and
`h[v] += bias/4` unconditionally; `quadratic_offset += bias` unconditionally. -/
def binaryToSpinLoop [DecidableEq K] :
    List ((K × K) × ℚ) → Dict K ℚ × Dict (K × K) ℚ × ℚ → Dict K ℚ × Dict (K × K) ℚ × ℚ
  | [], acc => acc
  | ((u, v), bias) :: rest, (h, J, qoff) =>
      binaryToSpinLoop rest
        (dmodify (dmodify h u (fun c => c + bias / 4)) v (fun c => c + bias / 4),
         if bias = 0 then J else dinsert J (u, v) (bias / 4),
         qoff + bias)

/-- `_binary_to_spin` (lines 321-349) as a pure function: `h` starts as
`{u: bias/2}` with `linear_offset = sum(linear.values())`, the loop
processes `quadratic`, and the offset becomes
`offset + linear_offset/2 + quadratic_offset/4`. -/
def binary_to_spin [DecidableEq K] (linear : Dict K ℚ) (quadratic : Dict (K × K) ℚ)
    (offset : ℚ) : Dict K ℚ × Dict (K × K) ℚ × ℚ :=
  let h0 : Dict K ℚ := linear.map (fun p => (p.1, p.2 / 2))
  let loff : ℚ := (dvals linear).sum
  let r := binaryToSpinLoop quadratic (h0, [], 0)
  (r.1, r.2.1, offset + loff / 2 + r.2.2 / 4)

/-- `as_qubo` (lines 174-201).  BINARY: dump the linear biases into the
quadratic dict as self-pairs `(v, v)`, add the quadratic biases, return with
the unchanged offset.  SPIN: run `_spin_to_binary` and fold the resulting
linear biases into the resulting quadratic as self-pairs.  (The
`RuntimeError` branch at line 195 is unreachable with a two-valued vartype.) -/
def as_qubo [DecidableEq K] (m : BQM K) : Dict (K × K) ℚ × ℚ :=
  match m.vartype with
  | .BINARY =>
      let q₁ := m.linear.foldl (fun q p => dinsert q (p.1, p.1) p.2) []
      let q₂ := m.quadratic.foldl (fun q p => dinsert q p.1 p.2) q₁
      (q₂, m.offset)
  | .SPIN =>
      let r := spin_to_binary m.linear m.quadratic m.offset
      (r.1.foldl (fun q p => dinsert q (p.1, p.1) p.2) r.2.1, r.2.2)

/-- `copy` (lines 249-256): `BinaryQuadraticModel(self.linear.copy(),
self.quadratic.copy(), self.offset, vartype=self.vartype)` — the constructor
re-runs on (value-equal copies of) the current attributes. -/
def copy [DecidableEq K] (m : BQM K) : Except String (BQM K) :=
  init m.linear (some m.quadratic) m.offset m.vartype

/-- `change_vartype` (lines 258-295), with the target vartype already
resolved: same vartype returns `self.copy()`; otherwise the matching
transform runs and the constructor is re-run on its output.  The final
`RuntimeError` branch (line 295, `pragma: no cover`) is unreachable with a
two-valued vartype and the inequality guard. -/
def change_vartype [DecidableEq K] (m : BQM K) (vartype : Vartype) :
    Except String (BQM K) :=
  if vartype = m.vartype then copy m
  else
    match m.vartype, vartype with
    | .SPIN, .BINARY =>
        let r := spin_to_binary m.linear m.quadratic m.offset
        init r.1 (some r.2.1) r.2.2 .BINARY
    | .BINARY, .SPIN =>
        let r := binary_to_spin m.linear m.quadratic m.offset
        init r.1 (some r.2.1) r.2.2 .SPIN
    | _, _ => .error "unknown vartype conversion"

/-- The two Python exception kinds that the comprehensions in
`relabel_variables` (lines 234-236) can raise: `KeyError` when `mapping[v]`
has no entry for `v`, `TypeError` when a mapping target is unhashable and is
used as a dict key or set element. -/
inductive PyErr (K : Type u) where
  | keyError (v : K)
  | typeError

/-- The `ValueError` message `relabel_variables` raises for each caught
exception (lines 237-240); the variable itself is not rendered into the
string in this embedding. -/
def relabelErrMsg : PyErr K → String
  | .keyError _ => "no mapping for variable"
  | .typeError => "mapping targets must be hashable objects"

section Relabel

variable {L : Type w}

/-- The dict comprehension `{mapping[v]: bias for v, bias in linear}` of
line 234: per item, look up the mapping (KeyError when absent), then use the
target as a dict key (TypeError when unhashable, modelled by the predicate
`isH`). -/
def relabelLinear [DecidableEq K] [DecidableEq L] (mapping : Dict K L) (isH : L → Bool) :
    List (K × ℚ) → Dict L ℚ → Except (PyErr K) (Dict L ℚ)
  | [], acc => .ok acc
  | (v, bias) :: rest, acc =>
      match dget mapping v with
      | none => .error (.keyError v)
      | some l =>
          if isH l then relabelLinear mapping isH rest (dinsert acc l bias)
          else .error .typeError

/-- The dict comprehension
`{(mapping[u], mapping[v]): bias for (u, v), bias in quadratic}` of line 235;
a tuple key is hashable exactly when both components are. -/
def relabelQuadratic [DecidableEq K] [DecidableEq L] (mapping : Dict K L) (isH : L → Bool) :
    List ((K × K) × ℚ) → Dict (L × L) ℚ → Except (PyErr K) (Dict (L × L) ℚ)
  | [], acc => .ok acc
  | ((u, v), bias) :: rest, acc =>
      match dget mapping u with
      | none => .error (.keyError u)
      | some lu =>
          match dget mapping v with
          | none => .error (.keyError v)
          | some lv =>
              if isH lu && isH lv then
                relabelQuadratic mapping isH rest (dinsert acc (lu, lv) bias)
              else .error .typeError

/-- The set comprehension `{mapping[v] for v in neighbours}` inside line 236. -/
def relabelNbrSet [DecidableEq K] [DecidableEq L] (mapping : Dict K L) (isH : L → Bool) :
    List K → List L → Except (PyErr K) (List L)
  | [], acc => .ok acc
  | v :: rest, acc =>
      match dget mapping v with
      | none => .error (.keyError v)
      | some l =>
          if isH l then relabelNbrSet mapping isH rest (setInsert acc l)
          else .error .typeError

/-- The dict comprehension of line 236:
`{mapping[u]: {mapping[v] for v in neighbours} for u, neighbours in adj}` —
note the value is a *set* of labels, so the rebuilt `adj` entries are
`Nbrs.set` values with the biases dropped. -/
def relabelAdj [DecidableEq K] [DecidableEq L] (mapping : Dict K L) (isH : L → Bool) :
    List (K × Nbrs K) → Dict L (Nbrs L) → Except (PyErr K) (Dict L (Nbrs L))
  | [], acc => .ok acc
  | (u, nbrs) :: rest, acc =>
      match dget mapping u with
      | none => .error (.keyError u)
      | some lu =>
          match relabelNbrSet mapping isH nbrs.iter [] with
          | .error e => .error e
          | .ok s =>
              if isH lu then relabelAdj mapping isH rest (dinsert acc lu (.set s))
              else .error .typeError

/-- `relabel_variables` (lines 222-247).  All raising statements (the three
comprehensions at lines 234-236 wrapped by the except clauses, and the
length check at lines 242-243) come before the field assignments at lines
245-247, so on failure the object is unchanged: the failure case carries the
`ValueError` message together with the object's (unchanged) post-state. -/
def relabel_variables [DecidableEq K] [DecidableEq L] (m : BQM K) (mapping : Dict K L)
    (isH : L → Bool) : BQM L ⊕ (String × BQM K) :=
  match relabelLinear mapping isH m.linear [] with
  | .error e => .inr (relabelErrMsg e, m)
  | .ok nl =>
      match relabelQuadratic mapping isH m.quadratic [] with
      | .error e => .inr (relabelErrMsg e, m)
      | .ok nq =>
          match relabelAdj mapping isH m.adj [] with
          | .error e => .inr (relabelErrMsg e, m)
          | .ok na =>
              if nl.length ≠ m.linear.length then
                .inr ("mapping does not contain unique keys", m)
              else
                .inl ⟨nl, nq, na, m.offset, m.vartype⟩

end Relabel

/-- The insertion-ordered key list that a sequence of dict insertions
produces: each new key is appended unless already present.  This is the
shape of the key list of any dict comprehension. -/
def addKeys [DecidableEq K] (ks : List K) (xs : List K) : List K :=
  xs.foldl (fun ks x => if x ∈ ks then ks else ks ++ [x]) ks

/-- The bias that the adjacency attribute records between `u` and `v`, when
`adj[u]` is a dict entry (as the constructor builds it). -/
def adjBias [DecidableEq K] (m : BQM K) (u v : K) : Option ℚ :=
  match dget m.adj u with
  | some (.dict d) => dget d v
  | _ => none

/-- Lookup through a raw (unwrapped) adjacency. -/
def adjGet [DecidableEq K] (adj : Dict K (Dict K ℚ)) (u v : K) : Option ℚ :=
  match dget adj u with
  | some d => dget d v
  | none => none

/-- The unique bias a well-formed quadratic dict stores for the unordered
pair `{x, y}`: the first entry keyed `(x, y)` or `(y, x)`. -/
def findPair [DecidableEq K] (pairs : List ((K × K) × ℚ)) (x y : K) : Option ℚ :=
  (pairs.find? (fun p => decide (p.1 = (x, y)) || decide (p.1 = (y, x)))).map Prod.snd

/-- The structural conditions on the quadratic dict that `__init__`'s
adjacency loop enforces: no self-loops, and no two entries with the same or
reversed key. -/
def PairsOk [DecidableEq K] (pairs : List ((K × K) × ℚ)) : Prop :=
  (∀ p ∈ pairs, p.1.1 ≠ p.1.2) ∧
  pairs.Pairwise (fun p q => p.1 ≠ q.1 ∧ p.1 ≠ (q.1.2, q.1.1))

/-- What it means for a `BQM` value to have been produced by a successful
run of the constructor on genuine Python dicts (whose keys are unique):
the invariants §3 of the spec lists, phrased on the embedded state. -/
structure Valid [DecidableEq K] (m : BQM K) : Prop where
  lin_nodup : (dkeys m.linear).Nodup
  edges : ∀ p ∈ m.quadratic, dhas m.linear p.1.1 = true ∧ dhas m.linear p.1.2 = true
  no_self : ∀ p ∈ m.quadratic, p.1.1 ≠ p.1.2
  pair_good : m.quadratic.Pairwise (fun p q => p.1 ≠ q.1 ∧ p.1 ≠ (q.1.2, q.1.1))
  adj_spec : ∃ a, buildAdj m.quadratic [] = .ok a ∧ m.adj = wrapAdj a

/-- Mixed linear-in-each-endpoint sum, the cross term of the vartype
transforms. -/
def mixSum (q : Dict (K × K) ℚ) (s : K → ℚ) : ℚ :=
  (q.map (fun p => p.2 * (s p.1.1 + s p.1.2))).sum

/-- Python set equality on the element-list representation. -/
def setEq [DecidableEq K] (s₁ s₂ : List K) : Bool :=
  s₁.all (fun x => decide (x ∈ s₂)) && s₂.all (fun x => decide (x ∈ s₁))

/-- Python `==` on `adj` entries: dicts compare as dicts, sets as sets, and
a dict never equals a set. -/
def nbrsEq [DecidableEq K] : Nbrs K → Nbrs K → Bool
  | .dict d₁, .dict d₂ => dictEq d₁ d₂
  | .set s₁, .set s₂ => setEq s₁ s₂
  | _, _ => false

/-- Python `==` on `adj` values. -/
def adjEq [DecidableEq K] (a₁ a₂ : Dict K (Nbrs K)) : Bool :=
  dictEqBy nbrsEq a₁ a₂

/-- A heap of dict objects, for the reference-semantics claims about `copy`
and `change_vartype`: addresses index linear-bias dicts and quadratic-bias
dicts; `next` is the next fresh address. -/
structure Store (K : Type u) where
  next : ℕ
  ldicts : ℕ → Dict K ℚ
  qdicts : ℕ → Dict (K × K) ℚ

/-- A `BinaryQuadraticModel` instance as the caller holds it under
reference semantics: `linear` and `quadratic` are references into the
store (the constructor stores exactly the objects it is handed, lines 90
and 103). -/
structure BQMRef where
  lin : ℕ
  quad : ℕ
  offset : ℚ
  vartype : Vartype

/-- Allocate a fresh linear-bias dict object. -/
def allocL (σ : Store K) (d : Dict K ℚ) : Store K × ℕ :=
  (⟨σ.next + 1, fun a => if a = σ.next then d else σ.ldicts a, σ.qdicts⟩, σ.next)

/-- Allocate a fresh quadratic-bias dict object. -/
def allocQ (σ : Store K) (d : Dict (K × K) ℚ) : Store K × ℕ :=
  (⟨σ.next + 1, σ.ldicts, fun a => if a = σ.next then d else σ.qdicts a⟩, σ.next)

/-- `copy` (lines 249-256) under reference semantics:
`self.linear.copy()` and `self.quadratic.copy()` make fresh dict objects
holding equal contents and the whole constructor is re-run on them, so
its validation can fail (`none`); on success the new instance references
exactly those fresh objects (the constructor stores the dicts it is
handed and echoes offset and vartype). -/
def copyRef [DecidableEq K] (σ : Store K) (r : BQMRef) :
    Option (Store K × BQMRef) :=
  match init (σ.ldicts r.lin) (some (σ.qdicts r.quad)) r.offset r.vartype with
  | .ok m =>
      let s₁ := allocL σ m.linear
      let s₂ := allocQ s₁.1 m.quadratic
      some (s₂.1, ⟨s₁.2, s₂.2, m.offset, m.vartype⟩)
  | .error _ => none

/-- `change_vartype` (lines 258-295) under reference semantics, with the
target vartype already resolved: at the current vartype it returns
`self.copy()` (line 286); otherwise the matching transform runs on the
current contents, the constructor validates them, and the result is held
in freshly allocated dicts.  In every branch `none` models the
constructor raising. -/
def change_vartype_ref [DecidableEq K] (σ : Store K) (r : BQMRef) (t : Vartype) :
    Option (Store K × BQMRef) :=
  if t = r.vartype then copyRef σ r
  else
    match r.vartype, t with
    | .SPIN, .BINARY =>
        let tr := spin_to_binary (σ.ldicts r.lin) (σ.qdicts r.quad) r.offset
        match init tr.1 (some tr.2.1) tr.2.2 .BINARY with
        | .ok m =>
            let s₁ := allocL σ m.linear
            let s₂ := allocQ s₁.1 m.quadratic
            some (s₂.1, ⟨s₁.2, s₂.2, m.offset, m.vartype⟩)
        | .error _ => none
    | .BINARY, .SPIN =>
        let tr := binary_to_spin (σ.ldicts r.lin) (σ.qdicts r.quad) r.offset
        match init tr.1 (some tr.2.1) tr.2.2 .SPIN with
        | .ok m =>
            let s₁ := allocL σ m.linear
            let s₂ := allocQ s₁.1 m.quadratic
            some (s₂.1, ⟨s₁.2, s₂.2, m.offset, m.vartype⟩)
        | .error _ => none
    | _, _ => none

/-- Overwrite the dict object at a linear-dict address (a mutation of some
model's `linear` attribute in place). -/
def setL (σ : Store K) (a : ℕ) (d : Dict K ℚ) : Store K :=
  ⟨σ.next, fun x => if x = a then d else σ.ldicts x, σ.qdicts⟩

/-- Overwrite the dict object at a quadratic-dict address. -/
def setQ (σ : Store K) (a : ℕ) (d : Dict (K × K) ℚ) : Store K :=
  ⟨σ.next, σ.ldicts, fun x => if x = a then d else σ.qdicts x⟩

/-- A concrete store: two allocated dict objects holding the contents of a
valid two-variable SPIN model. -/
def exStore : Store ℕ :=
  ⟨2, fun _ => [(0, (2 : ℚ)), (1, 3)], fun _ => [((0, 1), (5 : ℚ))]⟩

/-- A reference to the model held in `exStore`. -/
def exRef : BQMRef := ⟨0, 1, 7, .SPIN⟩

section DictLemmas

variable [DecidableEq K]

theorem dget_dinsert_self (d : Dict K V) (k : K) (v : V) :
    dget (dinsert d k v) k = some v := by
  induction d with
  | nil => simp [dinsert, dget]
  | cons hd tl ih =>
      obtain ⟨k', v'⟩ := hd
      by_cases h : k = k' <;> simp [dinsert, dget, h, ih]

theorem dget_dinsert_ne (d : Dict K V) (k k' : K) (v : V) (h : k' ≠ k) :
    dget (dinsert d k v) k' = dget d k' := by
  induction d with
  | nil => simp [dinsert, dget, h]
  | cons hd tl ih =>
      obtain ⟨k₀, v₀⟩ := hd
      by_cases hk : k = k₀
      · subst hk; simp [dinsert, dget, h, ih]
      · by_cases hk' : k' = k₀ <;> simp [dinsert, dget, hk, hk', ih]

theorem dget_dmodify_self (d : Dict K V) (k : K) (f : V → V) :
    dget (dmodify d k f) k = (dget d k).map f := by
  induction d with
  | nil => simp [dmodify, dget]
  | cons hd tl ih =>
      obtain ⟨k', v'⟩ := hd
      by_cases h : k = k' <;> simp [dmodify, dget, h, ih]

theorem dget_dmodify_ne (d : Dict K V) (k k' : K) (f : V → V) (h : k' ≠ k) :
    dget (dmodify d k f) k' = dget d k' := by
  induction d with
  | nil => simp [dmodify, dget]
  | cons hd tl ih =>
      obtain ⟨k₀, v₀⟩ := hd
      by_cases hk : k = k₀
      · subst hk; simp [dmodify, dget, h, ih]
      · by_cases hk' : k' = k₀ <;> simp [dmodify, dget, hk, hk', ih]

theorem dkeys_dmodify (d : Dict K V) (k : K) (f : V → V) :
    dkeys (dmodify d k f) = dkeys d := by
  induction d with
  | nil => rfl
  | cons hd tl ih =>
      obtain ⟨k', v'⟩ := hd
      by_cases h : k = k' <;> simp [dmodify, dkeys, h] <;>
        simpa [dkeys] using ih

theorem dhas_iff_mem_dkeys (d : Dict K V) (k : K) :
    dhas d k = true ↔ k ∈ dkeys d := by
  induction d with
  | nil => simp [dhas, dget, dkeys]
  | cons hd tl ih =>
      obtain ⟨k', v'⟩ := hd
      by_cases h : k = k' <;> simp [dhas, dget, dkeys, h] at ih ⊢ <;> exact ih

theorem dget_isSome_iff_mem_dkeys (d : Dict K V) (k : K) :
    (dget d k).isSome ↔ k ∈ dkeys d := by
  simpa [dhas] using dhas_iff_mem_dkeys d k

theorem dget_eq_none_iff (d : Dict K V) (k : K) :
    dget d k = none ↔ k ∉ dkeys d := by
  rw [← dget_isSome_iff_mem_dkeys]
  cases dget d k <;> simp

theorem mem_dkeys_iff_entry (d : Dict K V) (k : K) :
    k ∈ dkeys d ↔ ∃ v, (k, v) ∈ d := by
  simp only [dkeys, List.mem_map]
  constructor
  · rintro ⟨⟨a, b⟩, hmem, rfl⟩
    exact ⟨b, hmem⟩
  · rintro ⟨v, hv⟩
    exact ⟨(k, v), hv, rfl⟩

theorem dget_of_mem_nodup (d : Dict K V) (k : K) (v : V)
    (hnd : (dkeys d).Nodup) (hmem : (k, v) ∈ d) : dget d k = some v := by
  induction d with
  | nil => simp at hmem
  | cons hd tl ih =>
      obtain ⟨k', v'⟩ := hd
      simp only [dkeys, List.map_cons, List.nodup_cons] at hnd
      rcases List.mem_cons.mp hmem with h | h
      · obtain ⟨h1, h2⟩ := Prod.mk.injEq .. ▸ h
        simp [dget, h1.symm, h2]
      · have hk : k ≠ k' := by
          intro he
          exact hnd.1 (he ▸ (mem_dkeys_iff_entry tl k).mpr ⟨v, h⟩)
        simp [dget, hk, ih hnd.2 h]

theorem dkeys_dinsert (d : Dict K V) (k : K) (v : V) :
    dkeys (dinsert d k v) = if k ∈ dkeys d then dkeys d else dkeys d ++ [k] := by
  induction d with
  | nil => simp [dinsert, dkeys]
  | cons hd tl ih =>
      obtain ⟨k', v'⟩ := hd
      by_cases h : k = k'
      · subst h; simp [dinsert, dkeys]
      · have hmem : (k ∈ dkeys ((k', v') :: tl)) ↔ k ∈ dkeys tl := by
          simp [dkeys, h]
        simp only [dinsert, if_neg h]
        by_cases hm : k ∈ dkeys tl
        · rw [if_pos (hmem.mpr hm)]
          simp only [dkeys, List.map_cons] at ih hm ⊢
          rw [ih, if_pos hm]
        · rw [if_neg (fun hc => hm (hmem.mp hc))]
          simp only [dkeys, List.map_cons] at ih hm ⊢
          rw [ih, if_neg hm]
          simp

theorem dinsert_of_not_mem (d : Dict K V) (k : K) (v : V) (h : k ∉ dkeys d) :
    dinsert d k v = d ++ [(k, v)] := by
  induction d with
  | nil => simp [dinsert]
  | cons hd tl ih =>
      obtain ⟨k', v'⟩ := hd
      simp only [dkeys, List.map_cons, List.mem_cons] at h
      push_neg at h
      simp [dinsert, h.1, ih h.2]

theorem dget_append (d₁ d₂ : Dict K V) (k : K) :
    dget (d₁ ++ d₂) k = match dget d₁ k with
      | some v => some v
      | none => dget d₂ k := by
  induction d₁ with
  | nil => simp [dget]
  | cons hd tl ih =>
      obtain ⟨k', v'⟩ := hd
      by_cases h : k = k' <;> simp [dget, h, ih]

theorem dkeys_append (d₁ d₂ : Dict K V) :
    dkeys (d₁ ++ d₂) = dkeys d₁ ++ dkeys d₂ := by
  simp [dkeys]

end DictLemmas

section SumLemmas

variable [DecidableEq K]

theorem linSum_nil (s : K → ℚ) : linSum ([] : Dict K ℚ) s = 0 := rfl

theorem linSum_cons (p : K × ℚ) (d : Dict K ℚ) (s : K → ℚ) :
    linSum (p :: d) s = p.2 * s p.1 + linSum d s := by
  simp [linSum]

theorem linSum_append (d₁ d₂ : Dict K ℚ) (s : K → ℚ) :
    linSum (d₁ ++ d₂) s = linSum d₁ s + linSum d₂ s := by
  simp [linSum]

theorem quadSum_cons (p : (K × K) × ℚ) (q : Dict (K × K) ℚ) (s : K → ℚ) :
    quadSum (p :: q) s = p.2 * s p.1.1 * s p.1.2 + quadSum q s := by
  simp [quadSum]

theorem quadSum_append (q₁ q₂ : Dict (K × K) ℚ) (s : K → ℚ) :
    quadSum (q₁ ++ q₂) s = quadSum q₁ s + quadSum q₂ s := by
  simp [quadSum]

theorem mixSum_cons (p : (K × K) × ℚ) (q : Dict (K × K) ℚ) (s : K → ℚ) :
    mixSum (p :: q) s = p.2 * (s p.1.1 + s p.1.2) + mixSum q s := by
  simp [mixSum]

/-- Modifying one present key by `f` shifts `linSum` by `(f b - b) * s k`. -/
theorem linSum_dmodify (d : Dict K ℚ) (k : K) (f : ℚ → ℚ) (b : ℚ) (s : K → ℚ)
    (h : dget d k = some b) :
    linSum (dmodify d k f) s = linSum d s + (f b - b) * s k := by
  induction d with
  | nil => simp [dget] at h
  | cons hd tl ih =>
      obtain ⟨k', v'⟩ := hd
      by_cases hk : k = k'
      · subst hk
        simp only [dget, if_true, eq_self_iff_true, Option.some.injEq] at h
        subst h
        simp [dmodify, linSum_cons]
        ring
      · simp only [dget, if_neg hk] at h
        simp only [dmodify, if_neg hk]
        rw [linSum_cons, linSum_cons, ih h]
        ring

theorem linSum_congr (d : Dict K ℚ) (s₁ s₂ : K → ℚ)
    (h : ∀ k ∈ dkeys d, s₁ k = s₂ k) : linSum d s₁ = linSum d s₂ := by
  induction d with
  | nil => rfl
  | cons hd tl ih =>
      rw [linSum_cons, linSum_cons, h hd.1 (by simp [dkeys]),
        ih (fun k hk => h k (by simp [dkeys] at hk ⊢; exact Or.inr hk))]

theorem quadSum_filter_nonzero (q : Dict (K × K) ℚ) (s : K → ℚ) :
    quadSum (q.filter (fun p => !decide (p.2 = 0))) s = quadSum q s := by
  induction q with
  | nil => rfl
  | cons hd tl ih =>
      by_cases h : hd.2 = 0
      · simp [List.filter_cons, h, quadSum_cons, ih]
      · simp [List.filter_cons, h, quadSum_cons, ih]

theorem quadSum_map_scale (q : Dict (K × K) ℚ) (c : ℚ) (s : K → ℚ) :
    quadSum (q.map (fun p => (p.1, c * p.2))) s = c * quadSum q s := by
  induction q with
  | nil => simp [quadSum]
  | cons hd tl ih =>
      simp only [List.map_cons, quadSum_cons, ih]
      ring

theorem linSum_map_scale (d : Dict K ℚ) (c : ℚ) (s : K → ℚ) :
    linSum (d.map (fun p => (p.1, c * p.2))) s = c * linSum d s := by
  induction d with
  | nil => simp [linSum]
  | cons hd tl ih =>
      simp only [List.map_cons, linSum_cons, ih]
      ring

/-- Energy of a binary sample expressed through the corresponding spin
sample: the substitution `x = (s + 1) / 2` in the linear part. -/
theorem linSum_spin_substitution (d : Dict K ℚ) (s : K → ℚ) :
    linSum d (fun v => (s v + 1) / 2) = linSum d s / 2 + (dvals d).sum / 2 := by
  induction d with
  | nil => simp [linSum, dvals]
  | cons hd tl ih =>
      simp only [linSum_cons, ih, dvals, List.map_cons, List.sum_cons]
      ring

theorem quadSum_spin_substitution (q : Dict (K × K) ℚ) (s : K → ℚ) :
    quadSum q (fun v => (s v + 1) / 2) =
      quadSum q s / 4 + mixSum q s / 4 + (dvals q).sum / 4 := by
  induction q with
  | nil => simp [quadSum, mixSum, dvals]
  | cons hd tl ih =>
      simp only [quadSum_cons, mixSum_cons, ih, dvals, List.map_cons, List.sum_cons]
      ring

/-- The substitution `s = 2x - 1` in the linear part. -/
theorem linSum_binary_substitution (d : Dict K ℚ) (x : K → ℚ) :
    linSum d (fun v => 2 * x v - 1) = 2 * linSum d x - (dvals d).sum := by
  induction d with
  | nil => simp [linSum, dvals]
  | cons hd tl ih =>
      simp only [linSum_cons, ih, dvals, List.map_cons, List.sum_cons]
      ring

theorem quadSum_binary_substitution (q : Dict (K × K) ℚ) (x : K → ℚ) :
    quadSum q (fun v => 2 * x v - 1) =
      4 * quadSum q x - 2 * mixSum q x + (dvals q).sum := by
  induction q with
  | nil => simp [quadSum, mixSum, dvals]
  | cons hd tl ih =>
      simp only [quadSum_cons, mixSum_cons, ih, dvals, List.map_cons, List.sum_cons]
      ring

end SumLemmas

section TransformLemmas

variable [DecidableEq K]

theorem linSum_map_half (d : Dict K ℚ) (s : K → ℚ) :
    linSum (d.map (fun p => (p.1, p.2 / 2))) s = linSum d s / 2 := by
  induction d with
  | nil => simp [linSum]
  | cons hd tl ih =>
      simp only [List.map_cons, linSum_cons, ih]
      ring

theorem linSum_map_double (d : Dict K ℚ) (s : K → ℚ) :
    linSum (d.map (fun p => (p.1, 2 * p.2))) s = 2 * linSum d s := by
  induction d with
  | nil => simp [linSum]
  | cons hd tl ih =>
      simp only [List.map_cons, linSum_cons, ih]
      ring

theorem quadSum_map_quarter (q : Dict (K × K) ℚ) (s : K → ℚ) :
    quadSum (q.map (fun p => (p.1, p.2 / 4))) s = quadSum q s / 4 := by
  induction q with
  | nil => simp [quadSum]
  | cons hd tl ih =>
      simp only [List.map_cons, quadSum_cons, ih]
      ring

theorem quadSum_map_four (q : Dict (K × K) ℚ) (s : K → ℚ) :
    quadSum (q.map (fun p => (p.1, 4 * p.2))) s = 4 * quadSum q s := by
  induction q with
  | nil => simp [quadSum]
  | cons hd tl ih =>
      simp only [List.map_cons, quadSum_cons, ih]
      ring

theorem dkeys_binaryToSpinLoop (q : List ((K × K) × ℚ)) (h : Dict K ℚ)
    (J : Dict (K × K) ℚ) (c : ℚ) :
    dkeys (binaryToSpinLoop q (h, J, c)).1 = dkeys h := by
  induction q generalizing h J c with
  | nil => rfl
  | cons hd rest ih =>
      obtain ⟨⟨u, v⟩, b⟩ := hd
      simp only [binaryToSpinLoop]
      rw [ih, dkeys_dmodify, dkeys_dmodify]

theorem binaryToSpinLoop_qoff (q : List ((K × K) × ℚ)) (h : Dict K ℚ)
    (J : Dict (K × K) ℚ) (c : ℚ) :
    (binaryToSpinLoop q (h, J, c)).2.2 = c + (dvals q).sum := by
  induction q generalizing h J c with
  | nil => simp [binaryToSpinLoop, dvals]
  | cons hd rest ih =>
      obtain ⟨⟨u, v⟩, b⟩ := hd
      simp only [binaryToSpinLoop, ih, dvals, List.map_cons, List.sum_cons]
      ring

theorem binaryToSpinLoop_linSum (q : List ((K × K) × ℚ)) (h : Dict K ℚ)
    (J : Dict (K × K) ℚ) (c : ℚ) (s : K → ℚ)
    (hkeys : ∀ p ∈ q, p.1.1 ∈ dkeys h ∧ p.1.2 ∈ dkeys h) :
    linSum (binaryToSpinLoop q (h, J, c)).1 s = linSum h s + mixSum q s / 4 := by
  induction q generalizing h J c with
  | nil => simp [binaryToSpinLoop, mixSum]
  | cons hd rest ih =>
      obtain ⟨⟨u, v⟩, b⟩ := hd
      have hu : u ∈ dkeys h := (hkeys _ (List.mem_cons_self _ _)).1
      have hv : v ∈ dkeys h := (hkeys _ (List.mem_cons_self _ _)).2
      obtain ⟨bu, hbu⟩ := Option.isSome_iff_exists.mp ((dget_isSome_iff_mem_dkeys h u).mpr hu)
      have hv₁ : v ∈ dkeys (dmodify h u (fun c => c + b / 4)) := by
        rw [dkeys_dmodify]; exact hv
      obtain ⟨bv, hbv⟩ := Option.isSome_iff_exists.mp
        ((dget_isSome_iff_mem_dkeys _ v).mpr hv₁)
      simp only [binaryToSpinLoop]
      rw [ih _ _ _ (fun p hp => by
        rw [dkeys_dmodify, dkeys_dmodify]
        exact hkeys p (List.mem_cons_of_mem _ hp))]
      rw [linSum_dmodify _ _ _ _ _ hbv, linSum_dmodify _ _ _ _ _ hbu, mixSum_cons]
      ring

theorem binaryToSpinLoop_J (q : List ((K × K) × ℚ)) (h : Dict K ℚ)
    (J : Dict (K × K) ℚ) (c : ℚ)
    (hnd : (dkeys q).Nodup) (hfresh : ∀ p ∈ q, p.1 ∉ dkeys J) :
    (binaryToSpinLoop q (h, J, c)).2.1 =
      J ++ (q.filter (fun p => !decide (p.2 = 0))).map (fun p => (p.1, p.2 / 4)) := by
  induction q generalizing h J c with
  | nil => simp [binaryToSpinLoop]
  | cons hd rest ih =>
      obtain ⟨⟨u, v⟩, b⟩ := hd
      simp only [dkeys, List.map_cons, List.nodup_cons] at hnd
      by_cases hb : b = 0
      · simp only [binaryToSpinLoop, if_pos hb]
        rw [ih _ _ _ hnd.2 (fun p hp => hfresh p (List.mem_cons_of_mem _ hp))]
        simp [List.filter_cons, hb]
      · simp only [binaryToSpinLoop, if_neg hb]
        have hfr : (u, v) ∉ dkeys J := hfresh _ (List.mem_cons_self _ _)
        rw [ih _ _ _ hnd.2 (fun p hp => by
          rw [dkeys_dinsert, if_neg hfr]
          simp only [List.mem_append, List.mem_singleton]
          push_neg
          refine ⟨hfresh p (List.mem_cons_of_mem _ hp), ?_⟩
          intro hc
          exact hnd.1 (hc ▸ (List.mem_map.mpr ⟨p, hp, rfl⟩))),
          dinsert_of_not_mem _ _ _ hfr]
        simp [List.filter_cons, hb]

theorem dkeys_spinToBinaryLoop (q : List ((K × K) × ℚ)) (nl : Dict K ℚ)
    (nq : Dict (K × K) ℚ) :
    dkeys (spinToBinaryLoop q (nl, nq)).1 = dkeys nl := by
  induction q generalizing nl nq with
  | nil => rfl
  | cons hd rest ih =>
      obtain ⟨⟨u, v⟩, b⟩ := hd
      by_cases hb : b = 0
      · simp only [spinToBinaryLoop, if_pos hb, ih]
      · simp only [spinToBinaryLoop, if_neg hb]
        rw [ih, dkeys_dmodify, dkeys_dmodify]

theorem spinToBinaryLoop_linSum (q : List ((K × K) × ℚ)) (nl : Dict K ℚ)
    (nq : Dict (K × K) ℚ) (x : K → ℚ)
    (hkeys : ∀ p ∈ q, p.1.1 ∈ dkeys nl ∧ p.1.2 ∈ dkeys nl) :
    linSum (spinToBinaryLoop q (nl, nq)).1 x = linSum nl x - 2 * mixSum q x := by
  induction q generalizing nl nq with
  | nil => simp [spinToBinaryLoop, mixSum]
  | cons hd rest ih =>
      obtain ⟨⟨u, v⟩, b⟩ := hd
      by_cases hb : b = 0
      · simp only [spinToBinaryLoop, if_pos hb]
        rw [ih _ _ (fun p hp => hkeys p (List.mem_cons_of_mem _ hp)), mixSum_cons, hb]
        ring
      · have hu : u ∈ dkeys nl := (hkeys _ (List.mem_cons_self _ _)).1
        have hv : v ∈ dkeys nl := (hkeys _ (List.mem_cons_self _ _)).2
        obtain ⟨bu, hbu⟩ := Option.isSome_iff_exists.mp
          ((dget_isSome_iff_mem_dkeys nl u).mpr hu)
        have hv₁ : v ∈ dkeys (dmodify nl u (fun c => c - 2 * b)) := by
          rw [dkeys_dmodify]; exact hv
        obtain ⟨bv, hbv⟩ := Option.isSome_iff_exists.mp
          ((dget_isSome_iff_mem_dkeys _ v).mpr hv₁)
        simp only [spinToBinaryLoop, if_neg hb]
        rw [ih _ _ (fun p hp => by
          rw [dkeys_dmodify, dkeys_dmodify]
          exact hkeys p (List.mem_cons_of_mem _ hp))]
        rw [linSum_dmodify _ _ _ _ _ hbv, linSum_dmodify _ _ _ _ _ hbu, mixSum_cons]
        ring

theorem spinToBinaryLoop_nq (q : List ((K × K) × ℚ)) (nl : Dict K ℚ)
    (nq : Dict (K × K) ℚ)
    (hnd : (dkeys q).Nodup) (hfresh : ∀ p ∈ q, p.1 ∉ dkeys nq) :
    (spinToBinaryLoop q (nl, nq)).2 =
      nq ++ (q.filter (fun p => !decide (p.2 = 0))).map (fun p => (p.1, 4 * p.2)) := by
  induction q generalizing nl nq with
  | nil => simp [spinToBinaryLoop]
  | cons hd rest ih =>
      obtain ⟨⟨u, v⟩, b⟩ := hd
      simp only [dkeys, List.map_cons, List.nodup_cons] at hnd
      by_cases hb : b = 0
      · simp only [spinToBinaryLoop, if_pos hb]
        rw [ih _ _ hnd.2 (fun p hp => hfresh p (List.mem_cons_of_mem _ hp))]
        simp [List.filter_cons, hb]
      · simp only [spinToBinaryLoop, if_neg hb]
        have hfr : (u, v) ∉ dkeys nq := hfresh _ (List.mem_cons_self _ _)
        rw [ih _ _ hnd.2 (fun p hp => by
          rw [dkeys_dinsert, if_neg hfr]
          simp only [List.mem_append, List.mem_singleton]
          push_neg
          refine ⟨hfresh p (List.mem_cons_of_mem _ hp), ?_⟩
          intro hc
          exact hnd.1 (hc ▸ (List.mem_map.mpr ⟨p, hp, rfl⟩))),
          dinsert_of_not_mem _ _ _ hfr]
        simp [List.filter_cons, hb]

end TransformLemmas

section AdjLemmas

variable [DecidableEq K]

theorem adjInsertHalf_ok (adj : Dict K (Dict K ℚ)) (u v : K) (b : ℚ)
    (h : adjGet adj u v = none) :
    ∃ adj', adjInsertHalf adj u v b = .ok adj' ∧
      (∀ x y, adjGet adj' x y =
        if x = u ∧ y = v then some b else adjGet adj x y) ∧
      (∀ x, (dget adj' x).isSome = ((dget adj x).isSome || decide (x = u))) := by
  cases hu : dget adj u with
  | none =>
      refine ⟨dinsert adj u [(v, b)], by simp [adjInsertHalf, hu], ?_, ?_⟩
      · intro x y
        by_cases hx : x = u
        · subst hx
          rw [show adjGet (dinsert adj x [(v, b)]) x y = dget [(v, b)] y by
            simp [adjGet, dget_dinsert_self]]
          by_cases hy : y = v
          · simp [dget, hy]
          · simp [dget, hy, adjGet, hu]
        · simp only [adjGet, dget_dinsert_ne adj u x _ hx]
          simp [hx]
      · intro x
        by_cases hx : x = u
        · subst hx; simp [dget_dinsert_self]
        · simp [dget_dinsert_ne adj u x _ hx, hx]
  | some nbrs =>
      have h' : dget nbrs v = none := by
        simpa [adjGet, hu] using h
      refine ⟨dinsert adj u (dinsert nbrs v b),
        by simp [adjInsertHalf, hu, h'], ?_, ?_⟩
      · intro x y
        by_cases hx : x = u
        · subst hx
          rw [show adjGet (dinsert adj x (dinsert nbrs v b)) x y
              = dget (dinsert nbrs v b) y by
            simp [adjGet, dget_dinsert_self]]
          by_cases hy : y = v
          · subst hy; simp [dget_dinsert_self]
          · simp [dget_dinsert_ne nbrs v y _ hy, hy, adjGet, hu]
        · simp only [adjGet, dget_dinsert_ne adj u x _ hx]
          simp [hx]
      · intro x
        by_cases hx : x = u
        · subst hx; simp [dget_dinsert_self]
        · simp [dget_dinsert_ne adj u x _ hx, hx]

theorem adjInsertHalf_error (adj : Dict K (Dict K ℚ)) (u v : K) (b : ℚ)
    (h : (adjGet adj u v).isSome = true) :
    adjInsertHalf adj u v b = .error "quadratic must be upper triangular" := by
  cases hu : dget adj u with
  | none => rw [show adjGet adj u v = none by simp [adjGet, hu]] at h; simp at h
  | some nbrs =>
      have h' : (dget nbrs v).isSome = true := by
        simpa [adjGet, hu] using h
      simp [adjInsertHalf, hu, h']

theorem adjStepPair_ok (adj : Dict K (Dict K ℚ)) (u v : K) (b : ℚ)
    (huv : u ≠ v) (h1 : adjGet adj u v = none) (h2 : adjGet adj v u = none) :
    ∃ adj₁ adj₂, adjInsertHalf adj u v b = .ok adj₁ ∧
      adjInsertHalf adj₁ v u b = .ok adj₂ ∧
      (∀ x y, adjGet adj₂ x y =
        if (x = u ∧ y = v) ∨ (x = v ∧ y = u) then some b else adjGet adj x y) ∧
      (∀ x, (dget adj₂ x).isSome =
        ((dget adj x).isSome || decide (x = u) || decide (x = v))) := by
  obtain ⟨adj₁, he₁, hp₁, hk₁⟩ := adjInsertHalf_ok adj u v b h1
  have h2' : adjGet adj₁ v u = none := by
    rw [hp₁ v u, if_neg (fun hc => huv hc.1.symm)]
    exact h2
  obtain ⟨adj₂, he₂, hp₂, hk₂⟩ := adjInsertHalf_ok adj₁ v u b h2'
  refine ⟨adj₁, adj₂, he₁, he₂, ?_, ?_⟩
  · intro x y
    rw [hp₂ x y, hp₁ x y]
    by_cases c1 : x = v ∧ y = u
    · rw [if_pos c1, if_pos (Or.inr c1)]
    · by_cases c2 : x = u ∧ y = v
      · rw [if_neg c1, if_pos c2, if_pos (Or.inl c2)]
      · rw [if_neg c1, if_neg c2, if_neg (fun hc => hc.elim c2 c1)]
  · intro x
    rw [hk₂ x, hk₁ x]

theorem findPair_cons_match (u v : K) (b : ℚ) (rest : List ((K × K) × ℚ))
    (x y : K) (h : (u, v) = (x, y) ∨ (u, v) = (y, x)) :
    findPair (((u, v), b) :: rest) x y = some b := by
  unfold findPair
  rw [List.find?_cons_of_pos]
  · rfl
  · simpa using h

theorem findPair_cons_nomatch (u v : K) (b : ℚ) (rest : List ((K × K) × ℚ))
    (x y : K) (h : ¬((u, v) = (x, y) ∨ (u, v) = (y, x))) :
    findPair (((u, v), b) :: rest) x y = findPair rest x y := by
  unfold findPair
  rw [List.find?_cons_of_neg]
  simpa using h

theorem findPair_eq_none (pairs : List ((K × K) × ℚ)) (x y : K)
    (h : ∀ q ∈ pairs, ¬(q.1 = (x, y) ∨ q.1 = (y, x))) :
    findPair pairs x y = none := by
  unfold findPair
  rw [List.find?_eq_none.mpr]
  · rfl
  · intro q hq
    simpa using h q hq

theorem buildAdj_ok_spec (pairs : List ((K × K) × ℚ)) :
    ∀ adj : Dict K (Dict K ℚ),
    (∀ p ∈ pairs, p.1.1 ≠ p.1.2) →
    pairs.Pairwise (fun p q => p.1 ≠ q.1 ∧ p.1 ≠ (q.1.2, q.1.1)) →
    (∀ p ∈ pairs, adjGet adj p.1.1 p.1.2 = none) →
    (∀ x y, (adjGet adj x y).isSome = (adjGet adj y x).isSome) →
    ∃ res, buildAdj pairs adj = .ok res ∧
      (∀ x y c, findPair pairs x y = some c → adjGet res x y = some c) ∧
      (∀ x y, findPair pairs x y = none → adjGet res x y = adjGet adj x y) ∧
      (∀ x, (dget res x).isSome =
        ((dget adj x).isSome ||
          pairs.any (fun p => decide (x = p.1.1) || decide (x = p.1.2)))) := by
  induction pairs with
  | nil =>
      intro adj _ _ _ _
      refine ⟨adj, rfl, ?_, ?_, ?_⟩
      · intro x y c hc; simp [findPair] at hc
      · intro x y _; rfl
      · intro x; simp
  | cons hd rest ih =>
      intro adj hself hpw hnone hsym
      obtain ⟨⟨u, v⟩, b⟩ := hd
      have huv : u ≠ v := hself _ (List.mem_cons_self _ _)
      have h1 : adjGet adj u v = none := hnone _ (List.mem_cons_self _ _)
      have h2 : adjGet adj v u = none := by
        have h := hsym v u
        rw [h1] at h
        simp only [Option.isSome_none] at h
        exact Option.not_isSome_iff_eq_none.mp (by simp [h])
      rw [List.pairwise_cons] at hpw
      obtain ⟨hhd, hpwrest⟩ := hpw
      obtain ⟨adj₁, adj₂, he₁, he₂, hp₂, hk₂⟩ := adjStepPair_ok adj u v b huv h1 h2
      have hnone₂ : ∀ p ∈ rest, adjGet adj₂ p.1.1 p.1.2 = none := by
        intro p hp
        rw [hp₂, if_neg, hnone p (List.mem_cons_of_mem _ hp)]
        rintro (⟨ha, hb⟩ | ⟨ha, hb⟩)
        · exact (hhd p hp).1 (by rw [← ha, ← hb])
        · exact (hhd p hp).2 (by rw [← ha, ← hb])
      have hsym₂ : ∀ x y, (adjGet adj₂ x y).isSome = (adjGet adj₂ y x).isSome := by
        intro x y
        rw [hp₂ x y, hp₂ y x]
        by_cases c : (x = u ∧ y = v) ∨ (x = v ∧ y = u)
        · rw [if_pos c, if_pos (by tauto)]
        · rw [if_neg c, if_neg (by tauto)]
          exact hsym x y
      obtain ⟨res, hres, hA, hB, hK⟩ := ih adj₂
        (fun p hp => hself p (List.mem_cons_of_mem _ hp)) hpwrest hnone₂ hsym₂
      have hbuild : buildAdj (((u, v), b) :: rest) adj = buildAdj rest adj₂ := by
        simp [buildAdj, if_neg huv, he₁, he₂]
      refine ⟨res, by rw [hbuild]; exact hres, ?_, ?_, ?_⟩
      · intro x y c hc
        by_cases hm : (u, v) = (x, y) ∨ (u, v) = (y, x)
        · have hrest : findPair rest x y = none := by
            apply findPair_eq_none
            intro q hq hmq
            rcases hm with hm | hm
            · rcases hmq with hmq | hmq
              · exact (hhd q hq).1 (hm.trans hmq.symm)
              · have h1 : q.1.1 = y := congrArg Prod.fst hmq
                have h2 : q.1.2 = x := congrArg Prod.snd hmq
                exact (hhd q hq).2 (by rw [h2, h1]; exact hm)
            · rcases hmq with hmq | hmq
              · have h1 : q.1.1 = x := congrArg Prod.fst hmq
                have h2 : q.1.2 = y := congrArg Prod.snd hmq
                exact (hhd q hq).2 (by rw [h2, h1]; exact hm)
              · exact (hhd q hq).1 (hm.trans hmq.symm)
          have hcb : c = b := by
            rw [findPair_cons_match u v b rest x y hm] at hc
            exact (Option.some.injEq _ _ ▸ hc).symm
          subst hcb
          rw [hB x y hrest, hp₂ x y, if_pos]
          rcases hm with hm | hm
          · injection hm with hmx hmy
            exact Or.inl ⟨hmx.symm, hmy.symm⟩
          · injection hm with hmx hmy
            exact Or.inr ⟨hmy.symm, hmx.symm⟩
        · rw [findPair_cons_nomatch u v b rest x y hm] at hc
          exact hA x y c hc
      · intro x y hn
        have hhead : ¬((u, v) = (x, y) ∨ (u, v) = (y, x)) := by
          intro hm
          rw [findPair_cons_match u v b rest x y hm] at hn
          exact Option.some_ne_none _ hn
        have hrest : findPair rest x y = none := by
          rw [← findPair_cons_nomatch u v b rest x y hhead]
          exact hn
        rw [hB x y hrest, hp₂ x y, if_neg]
        rintro (⟨rfl, rfl⟩ | ⟨rfl, rfl⟩)
        · exact hhead (Or.inl rfl)
        · exact hhead (Or.inr rfl)
      · intro x
        rw [hK x, hk₂ x]
        simp only [List.any_cons]
        by_cases hx1 : x = u <;> by_cases hx2 : x = v <;>
          cases h : (dget adj x).isSome <;> simp [hx1, hx2]

theorem buildAdj_error_spec (pairs : List ((K × K) × ℚ)) :
    ∀ adj : Dict K (Dict K ℚ),
    (∀ x y, (adjGet adj x y).isSome = (adjGet adj y x).isSome) →
    ((∃ p ∈ pairs, p.1.1 = p.1.2) ∨
     ¬ pairs.Pairwise (fun p q => p.1 ≠ q.1 ∧ p.1 ≠ (q.1.2, q.1.1)) ∨
     (∃ p ∈ pairs, (adjGet adj p.1.1 p.1.2).isSome = true)) →
    ∃ e, buildAdj pairs adj = .error e := by
  induction pairs with
  | nil =>
      intro adj _ hbad
      rcases hbad with ⟨p, hp, _⟩ | hbad | ⟨p, hp, _⟩
      · simp at hp
      · exact absurd List.Pairwise.nil hbad
      · simp at hp
  | cons hd rest ih =>
      intro adj hsym hbad
      obtain ⟨⟨u, v⟩, b⟩ := hd
      by_cases hself : u = v
      · exact ⟨"bias in quadratic is a linear bias", by simp [buildAdj, hself]⟩
      by_cases hpres : (adjGet adj u v).isSome = true
      · refine ⟨"quadratic must be upper triangular", ?_⟩
        simp [buildAdj, if_neg hself, adjInsertHalf_error adj u v b hpres]
      have h1 : adjGet adj u v = none :=
        Option.not_isSome_iff_eq_none.mp (by simpa using hpres)
      have h2 : adjGet adj v u = none := by
        have h := hsym v u
        rw [h1] at h
        simp only [Option.isSome_none] at h
        exact Option.not_isSome_iff_eq_none.mp (by simp [h])
      obtain ⟨adj₁, adj₂, he₁, he₂, hp₂, hk₂⟩ := adjStepPair_ok adj u v b hself h1 h2
      have hbuild : buildAdj (((u, v), b) :: rest) adj = buildAdj rest adj₂ := by
        simp [buildAdj, if_neg hself, he₁, he₂]
      have hsym₂ : ∀ x y, (adjGet adj₂ x y).isSome = (adjGet adj₂ y x).isSome := by
        intro x y
        rw [hp₂ x y, hp₂ y x]
        by_cases c : (x = u ∧ y = v) ∨ (x = v ∧ y = u)
        · rw [if_pos c, if_pos (by tauto)]
        · rw [if_neg c, if_neg (by tauto)]
          exact hsym x y
      have step : ((∃ p ∈ rest, p.1.1 = p.1.2) ∨
          ¬ rest.Pairwise (fun p q => p.1 ≠ q.1 ∧ p.1 ≠ (q.1.2, q.1.1)) ∨
          (∃ p ∈ rest, (adjGet adj₂ p.1.1 p.1.2).isSome = true)) := by
        rcases hbad with ⟨p, hp, hps⟩ | hnp | ⟨p, hp, hps⟩
        · rcases List.mem_cons.mp hp with rfl | hp
          · exact absurd hps hself
          · exact Or.inl ⟨p, hp, hps⟩
        · rw [List.pairwise_cons, not_and_or] at hnp
          rcases hnp with hnp | hnp
          · have hex : ∃ q ∈ rest, ((u, v) = q.1 ∨ (u, v) = (q.1.2, q.1.1)) := by
              by_contra hc
              push_neg at hc
              exact hnp (fun q hq => ⟨(hc q hq).1, (hc q hq).2⟩)
            obtain ⟨q, hq, hmr⟩ := hex
            refine Or.inr (Or.inr ⟨q, hq, ?_⟩)
            rw [hp₂, if_pos]
            · rfl
            · rcases hmr with hmr | hmr
              · have hx : u = q.1.1 := congrArg Prod.fst hmr
                have hy : v = q.1.2 := congrArg Prod.snd hmr
                exact Or.inl ⟨hx.symm, hy.symm⟩
              · have hx : u = q.1.2 := congrArg Prod.fst hmr
                have hy : v = q.1.1 := congrArg Prod.snd hmr
                exact Or.inr ⟨hy.symm, hx.symm⟩
          · exact Or.inr (Or.inl hnp)
        · rcases List.mem_cons.mp hp with rfl | hp
          · exact absurd hps (by simpa using hpres)
          · refine Or.inr (Or.inr ⟨p, hp, ?_⟩)
            rw [hp₂]
            by_cases c : (p.1.1 = u ∧ p.1.2 = v) ∨ (p.1.1 = v ∧ p.1.2 = u)
            · rw [if_pos c]; rfl
            · rw [if_neg c]; exact hps
      obtain ⟨e, he⟩ := ih adj₂ hsym₂ step
      exact ⟨e, hbuild ▸ he⟩

end AdjLemmas

section InitLemmas

variable [DecidableEq K]

theorem dget_wrapAdj (a : Dict K (Dict K ℚ)) (x : K) :
    dget (wrapAdj a) x = (dget a x).map Nbrs.dict := by
  induction a with
  | nil => rfl
  | cons hd tl ih =>
      obtain ⟨k, d⟩ := hd
      by_cases hx : x = k <;> simp [wrapAdj, dget, hx] <;> simpa [wrapAdj] using ih

theorem adjBias_of_wrapAdj (m : BQM K) (a : Dict K (Dict K ℚ))
    (hm : m.adj = wrapAdj a) (u v : K) : adjBias m u v = adjGet a u v := by
  unfold adjBias adjGet
  rw [hm, dget_wrapAdj]
  cases dget a u <;> simp

theorem init_ok_elim (linear : Dict K ℚ) (q : Dict (K × K) ℚ) (o : ℚ)
    (t : Vartype) (m : BQM K) (h : init linear (some q) o t = .ok m) :
    (∀ p ∈ q, dhas linear p.1.1 = true ∧ dhas linear p.1.2 = true) ∧
    ∃ a, buildAdj q [] = .ok a ∧ m = ⟨linear, q, wrapAdj a, o, t⟩ := by
  simp only [init] at h
  by_cases hall : q.all (fun p => dhas linear p.1.1 && dhas linear p.1.2) = true
  · rw [if_pos hall] at h
    refine ⟨?_, ?_⟩
    · intro p hp
      have := List.all_eq_true.mp hall p hp
      simpa using this
    · cases hb : buildAdj q [] with
      | error e => rw [hb] at h; exact Except.noConfusion h
      | ok a =>
          rw [hb] at h
          injection h with h
          exact ⟨a, rfl, h.symm⟩
  · rw [if_neg hall] at h
    exact Except.noConfusion h

theorem buildAdj_ok_structural (q : Dict (K × K) ℚ) (a : Dict K (Dict K ℚ))
    (h : buildAdj q [] = .ok a) :
    (∀ p ∈ q, p.1.1 ≠ p.1.2) ∧
    q.Pairwise (fun p p' => p.1 ≠ p'.1 ∧ p.1 ≠ (p'.1.2, p'.1.1)) := by
  by_contra hc
  rw [not_and_or] at hc
  have hbad : ((∃ p ∈ q, p.1.1 = p.1.2) ∨
      ¬ q.Pairwise (fun p p' => p.1 ≠ p'.1 ∧ p.1 ≠ (p'.1.2, p'.1.1)) ∨
      (∃ p ∈ q, (adjGet ([] : Dict K (Dict K ℚ)) p.1.1 p.1.2).isSome = true)) := by
    rcases hc with hc | hc
    · left
      push_neg at hc
      obtain ⟨p, hp, hps⟩ := hc
      exact ⟨p, hp, hps⟩
    · exact Or.inr (Or.inl hc)
  obtain ⟨e, he⟩ := buildAdj_error_spec q [] (by intro x y; simp [adjGet, dget]) hbad
  rw [h] at he
  exact Except.noConfusion he

theorem init_valid (linear : Dict K ℚ) (q : Dict (K × K) ℚ) (o : ℚ)
    (t : Vartype) (m : BQM K) (hn : (dkeys linear).Nodup)
    (h : init linear (some q) o t = .ok m) : Valid m := by
  obtain ⟨hedges, a, hba, hm⟩ := init_ok_elim linear q o t m h
  obtain ⟨hself, hpw⟩ := buildAdj_ok_structural q a hba
  subst hm
  exact ⟨hn, hedges, hself, hpw, a, hba, rfl⟩

theorem init_ok_construct (linear : Dict K ℚ) (q : Dict (K × K) ℚ) (o : ℚ)
    (t : Vartype)
    (hedges : ∀ p ∈ q, dhas linear p.1.1 = true ∧ dhas linear p.1.2 = true)
    (hself : ∀ p ∈ q, p.1.1 ≠ p.1.2)
    (hpw : q.Pairwise (fun p p' => p.1 ≠ p'.1 ∧ p.1 ≠ (p'.1.2, p'.1.1))) :
    ∃ a, buildAdj q [] = .ok a ∧
      init linear (some q) o t = .ok ⟨linear, q, wrapAdj a, o, t⟩ := by
  obtain ⟨res, hres, _, _, _⟩ := buildAdj_ok_spec q [] hself hpw
    (by intro p hp; simp [adjGet, dget]) (by intro x y; simp [adjGet, dget])
  refine ⟨res, hres, ?_⟩
  simp only [init]
  rw [if_pos (List.all_eq_true.mpr (fun p hp => by
    simpa using hedges p hp)), hres]

theorem findPair_self (q : Dict (K × K) ℚ)
    (hpw : q.Pairwise (fun p p' => p.1 ≠ p'.1 ∧ p.1 ≠ (p'.1.2, p'.1.1))) :
    ∀ p ∈ q, findPair q p.1.1 p.1.2 = some p.2 ∧
      findPair q p.1.2 p.1.1 = some p.2 := by
  induction q with
  | nil => intro p hp; simp at hp
  | cons hd rest ih =>
      intro p hp
      rw [List.pairwise_cons] at hpw
      obtain ⟨hhd, hpwrest⟩ := hpw
      obtain ⟨⟨u, v⟩, b⟩ := hd
      rcases List.mem_cons.mp hp with rfl | hp
      · constructor
        · exact findPair_cons_match u v b rest u v (Or.inl rfl)
        · exact findPair_cons_match u v b rest v u (Or.inr rfl)
      · have hnm1 : ¬((u, v) = (p.1.1, p.1.2) ∨ (u, v) = (p.1.2, p.1.1)) := by
          rintro (hm | hm)
          · exact (hhd p hp).1 (by rw [hm])
          · exact (hhd p hp).2 hm
        have hnm2 : ¬((u, v) = (p.1.2, p.1.1) ∨ (u, v) = (p.1.1, p.1.2)) := by
          rintro (hm | hm)
          · exact (hhd p hp).2 hm
          · exact (hhd p hp).1 (by rw [hm])
        rw [findPair_cons_nomatch u v b rest p.1.1 p.1.2 hnm1,
          findPair_cons_nomatch u v b rest p.1.2 p.1.1 hnm2]
        exact ih hpwrest p hp

theorem findPair_isSome_mem (q : Dict (K × K) ℚ) (x y : K)
    (h : (findPair q x y).isSome = true) :
    (x, y) ∈ dkeys q ∨ (y, x) ∈ dkeys q := by
  unfold findPair at h
  cases hf : q.find? (fun p => decide (p.1 = (x, y)) || decide (p.1 = (y, x))) with
  | none => rw [hf] at h; simp at h
  | some r =>
      have hr := List.find?_some hf
      have hmem := List.mem_of_find?_eq_some hf
      simp only [Bool.or_eq_true, decide_eq_true_eq] at hr
      rcases hr with hr | hr
      · exact Or.inl (hr ▸ List.mem_map.mpr ⟨r, hmem, rfl⟩)
      · exact Or.inr (hr ▸ List.mem_map.mpr ⟨r, hmem, rfl⟩)

theorem pairwise_no_reverse (q : Dict (K × K) ℚ)
    (hpw : q.Pairwise (fun p p' => p.1 ≠ p'.1 ∧ p.1 ≠ (p'.1.2, p'.1.1)))
    (u v : K) (huv : u ≠ v)
    (h1 : (u, v) ∈ dkeys q) (h2 : (v, u) ∈ dkeys q) : False := by
  obtain ⟨b1, hb1⟩ := (mem_dkeys_iff_entry q (u, v)).mp h1
  obtain ⟨b2, hb2⟩ := (mem_dkeys_iff_entry q (v, u)).mp h2
  have hsymm : Symmetric (fun (p p' : (K × K) × ℚ) =>
      p.1 ≠ p'.1 ∧ p.1 ≠ (p'.1.2, p'.1.1)) := by
    rintro p p' ⟨ha, hb⟩
    constructor
    · exact fun hc => ha hc.symm
    · intro hc
      apply hb
      have h1 : p.1.1 = p'.1.2 := by rw [hc]
      have h2 : p.1.2 = p'.1.1 := by rw [hc]
      rw [← h1, ← h2]
  have hne : ((u, v), b1) ≠ ((v, u), b2) := by
    intro hc
    injection hc with hc1 _
    exact huv (congrArg Prod.fst hc1)
  have := (hpw.forall hsymm) hb1 hb2 hne
  exact this.2 (by simp)

theorem pairwise_good_of (q : Dict (K × K) ℚ) (hq : (dkeys q).Nodup)
    (hself : ∀ p ∈ q, p.1.1 ≠ p.1.2)
    (hrev : ¬ ∃ u v, u ≠ v ∧ (u, v) ∈ dkeys q ∧ (v, u) ∈ dkeys q) :
    q.Pairwise (fun p p' => p.1 ≠ p'.1 ∧ p.1 ≠ (p'.1.2, p'.1.1)) := by
  have h₁ : q.Pairwise (fun p p' => p.1 ≠ p'.1) := by
    have h' : (List.map Prod.fst q).Pairwise (fun a b => a ≠ b) := hq
    exact List.pairwise_map.mp h'
  refine h₁.imp_of_mem ?_
  intro p p' hp hp' hne
  refine ⟨hne, ?_⟩
  intro hc
  apply hrev
  refine ⟨p'.1.2, p'.1.1, fun he => hself p' hp' he.symm, ?_, ?_⟩
  · rw [← hc]
    exact (mem_dkeys_iff_entry q p.1).mpr ⟨p.2, hp⟩
  · rw [show (p'.1.1, p'.1.2) = p'.1 from Prod.mk.eta]
    exact (mem_dkeys_iff_entry q p'.1).mpr ⟨p'.2, hp'⟩

end InitLemmas

section ClaimsAdjacency

/-- C3: for every `linear`, `quadratic`, `offset`, `vartype` on which
construction succeeds, the model's `adj` stores the quadratic bias under
both `adj[u][v]` and `adj[v][u]` for every key `(u, v)` of `quadratic`, and
contains no neighbour entry whose pair is (in either orientation) not a key
of `quadratic`; in particular the concrete scenario
linear={0:1, 1:-1, 2:0.5}, quadratic={(0,1):0.5, (1,2):1.5}, offset=1.4,
vartype=SPIN yields adj == {0:{1:0.5}, 1:{0:0.5, 2:1.5}, 2:{1:1.5}}. -/
theorem C3_adj_is_symmetric_closure [DecidableEq K]
    (linear : Dict K ℚ) (q : Dict (K × K) ℚ) (o : ℚ) (t : Vartype) (m : BQM K)
    (h : init linear (some q) o t = .ok m) :
    (∀ p ∈ q, adjBias m p.1.1 p.1.2 = some p.2 ∧ adjBias m p.1.2 p.1.1 = some p.2) ∧
    (∀ u v, (adjBias m u v).isSome = true → (u, v) ∈ dkeys q ∨ (v, u) ∈ dkeys q) ∧
    adjEq (match init [(0, (1 : ℚ)), (1, -1), (2, mkRat 1 2)]
        (some [((0, 1), mkRat 1 2), ((1, 2), mkRat 3 2)]) (mkRat 7 5) Vartype.SPIN with
      | .ok m₀ => m₀.adj
      | .error _ => [])
      (wrapAdj [(0, [(1, mkRat 1 2)]), (1, [(0, mkRat 1 2), (2, mkRat 3 2)]),
        (2, [(1, mkRat 3 2)])]) = true := by
  obtain ⟨hedges, a, hba, hm⟩ := init_ok_elim linear q o t m h
  obtain ⟨hself, hpw⟩ := buildAdj_ok_structural q a hba
  obtain ⟨res, hres, hA, hB, hK⟩ := buildAdj_ok_spec q [] hself hpw
    (by intro p hp; simp [adjGet, dget]) (by intro x y; simp [adjGet, dget])
  obtain rfl : res = a := by
    rw [hres] at hba
    injection hba with hh
  subst hm
  have hbias : ∀ u v, adjBias (⟨linear, q, wrapAdj res, o, t⟩ : BQM K) u v
      = adjGet res u v :=
    fun u v => adjBias_of_wrapAdj _ res rfl u v
  refine ⟨?_, ?_, by decide⟩
  · intro p hp
    obtain ⟨hf1, hf2⟩ := findPair_self q hpw p hp
    exact ⟨by rw [hbias]; exact hA _ _ _ hf1, by rw [hbias]; exact hA _ _ _ hf2⟩
  · intro u v hsome
    rw [hbias] at hsome
    cases hfp : findPair q u v with
    | some c => exact findPair_isSome_mem q u v (by rw [hfp]; rfl)
    | none =>
        rw [hB u v hfp] at hsome
        simp [adjGet, dget] at hsome

/-- Witness for C3 at a concrete construction. -/
theorem C3_adj_is_symmetric_closure_witness :
    (init [(0, (1 : ℚ)), (1, 2)] (some [((0, 1), 3)]) 4 Vartype.SPIN =
      .ok ⟨[(0, 1), (1, 2)], [((0, 1), 3)],
        wrapAdj [(0, [(1, 3)]), (1, [(0, 3)])], 4, .SPIN⟩) ∧
    ((∀ p ∈ ([((0, 1), (3 : ℚ))] : Dict (ℕ × ℕ) ℚ),
      adjBias (⟨[(0, 1), (1, 2)], [((0, 1), 3)],
        wrapAdj [(0, [(1, 3)]), (1, [(0, 3)])], 4, .SPIN⟩ : BQM ℕ) p.1.1 p.1.2
          = some p.2 ∧
      adjBias (⟨[(0, 1), (1, 2)], [((0, 1), 3)],
        wrapAdj [(0, [(1, 3)]), (1, [(0, 3)])], 4, .SPIN⟩ : BQM ℕ) p.1.2 p.1.1
          = some p.2) ∧
    (∀ u v, (adjBias (⟨[(0, 1), (1, 2)], [((0, 1), 3)],
        wrapAdj [(0, [(1, 3)]), (1, [(0, 3)])], 4, .SPIN⟩ : BQM ℕ) u v).isSome = true →
      (u, v) ∈ dkeys ([((0, 1), (3 : ℚ))] : Dict (ℕ × ℕ) ℚ) ∨
      (v, u) ∈ dkeys ([((0, 1), (3 : ℚ))] : Dict (ℕ × ℕ) ℚ)) ∧
    adjEq (match init [(0, (1 : ℚ)), (1, -1), (2, mkRat 1 2)]
        (some [((0, 1), mkRat 1 2), ((1, 2), mkRat 3 2)]) (mkRat 7 5) Vartype.SPIN with
      | .ok m₀ => m₀.adj
      | .error _ => [])
      (wrapAdj [(0, [(1, mkRat 1 2)]), (1, [(0, mkRat 1 2), (2, mkRat 3 2)]),
        (2, [(1, mkRat 3 2)])]) = true) :=
  ⟨by rfl, C3_adj_is_symmetric_closure [(0, 1), (1, 2)] [((0, 1), 3)] 4 .SPIN _ (by rfl)⟩

/-- C4: with a resolvable vartype and `linear` a dict, construction fails
exactly when: `quadratic` is not a dict, or some quadratic key references a
variable absent from `linear`, or some key is a self-loop, or both
orientations of some pair are present.  On failure the constructor raises,
so the `Except` result carries no model. -/
theorem C4_construction_failure_iff [DecidableEq K]
    (linear : Dict K ℚ) (q : Dict (K × K) ℚ) (o : ℚ) (t : Vartype)
    (hq : (dkeys q).Nodup) :
    (∃ e, init linear none o t = .error e) ∧
    ((∃ e, init linear (some q) o t = .error e) ↔
      ((∃ p ∈ q, ¬(dhas linear p.1.1 = true ∧ dhas linear p.1.2 = true)) ∨
       (∃ p ∈ q, p.1.1 = p.1.2) ∨
       (∃ u v, u ≠ v ∧ (u, v) ∈ dkeys q ∧ (v, u) ∈ dkeys q))) := by
  refine ⟨⟨"expected quadratic to be a dict", rfl⟩, ?_, ?_⟩
  · rintro ⟨e, he⟩
    by_contra hc
    rw [not_or, not_or] at hc
    obtain ⟨hc1, hc2, hc3⟩ := hc
    have hedges : ∀ p ∈ q, dhas linear p.1.1 = true ∧ dhas linear p.1.2 = true := by
      intro p hp
      by_contra hn
      exact hc1 ⟨p, hp, hn⟩
    have hself : ∀ p ∈ q, p.1.1 ≠ p.1.2 := by
      intro p hp hn
      exact hc2 ⟨p, hp, hn⟩
    have hpw := pairwise_good_of q hq hself hc3
    obtain ⟨a, hba, hok⟩ := init_ok_construct linear q o t hedges hself hpw
    rw [hok] at he
    exact Except.noConfusion he
  · intro hd
    by_cases hall : q.all (fun p => dhas linear p.1.1 && dhas linear p.1.2) = true
    · have hbad : ((∃ p ∈ q, p.1.1 = p.1.2) ∨
          ¬ q.Pairwise (fun p p' => p.1 ≠ p'.1 ∧ p.1 ≠ (p'.1.2, p'.1.1)) ∨
          (∃ p ∈ q, (adjGet ([] : Dict K (Dict K ℚ)) p.1.1 p.1.2).isSome = true)) := by
        rcases hd with hd | hd | hd
        · obtain ⟨p, hp, hn⟩ := hd
          exact absurd (by simpa using List.all_eq_true.mp hall p hp) hn
        · exact Or.inl hd
        · obtain ⟨u, v, huv, h1, h2⟩ := hd
          exact Or.inr (Or.inl (fun hpw => pairwise_no_reverse q hpw u v huv h1 h2))
      obtain ⟨e, he⟩ := buildAdj_error_spec q []
        (by intro x y; simp [adjGet, dget]) hbad
      refine ⟨e, ?_⟩
      simp only [init]
      rw [if_pos hall, he]
    · refine ⟨"each u, v in quadratic must also be in linear", ?_⟩
      simp only [init]
      rw [if_neg hall]

/-- Witness for C4 at a concrete self-loop input. -/
theorem C4_construction_failure_iff_witness :
    ((dkeys ([((0, 0), (2 : ℚ))] : Dict (ℕ × ℕ) ℚ)).Nodup) ∧
    ((∃ e, init ([(0, (1 : ℚ))] : Dict ℕ ℚ) none 0 .SPIN = .error e) ∧
     ((∃ e, init [(0, (1 : ℚ))] (some [((0, 0), 2)]) 0 .SPIN = .error e) ↔
       ((∃ p ∈ ([((0, 0), (2 : ℚ))] : Dict (ℕ × ℕ) ℚ),
          ¬(dhas [(0, (1 : ℚ))] p.1.1 = true ∧ dhas [(0, (1 : ℚ))] p.1.2 = true)) ∨
        (∃ p ∈ ([((0, 0), (2 : ℚ))] : Dict (ℕ × ℕ) ℚ), p.1.1 = p.1.2) ∨
        (∃ u v : ℕ, u ≠ v ∧ (u, v) ∈ dkeys ([((0, 0), (2 : ℚ))] : Dict (ℕ × ℕ) ℚ) ∧
          (v, u) ∈ dkeys ([((0, 0), (2 : ℚ))] : Dict (ℕ × ℕ) ℚ))))) :=
  ⟨by decide, C4_construction_failure_iff [(0, (1 : ℚ))] [((0, 0), 2)] 0 .SPIN (by decide)⟩

/-- C10: the key set of `adj` after construction is exactly the set of
variables that occur in at least one quadratic key; a variable appearing in
`linear` but in no quadratic key has no `adj` entry at all. -/
theorem C10_adj_keys_are_quadratic_vars [DecidableEq K]
    (linear : Dict K ℚ) (q : Dict (K × K) ℚ) (o : ℚ) (t : Vartype) (m : BQM K)
    (h : init linear (some q) o t = .ok m) :
    (∀ x, (dget m.adj x).isSome = true ↔ ∃ p ∈ m.quadratic, x = p.1.1 ∨ x = p.1.2) ∧
    (∀ x, x ∈ dkeys m.linear → (∀ p ∈ m.quadratic, x ≠ p.1.1 ∧ x ≠ p.1.2) →
      dget m.adj x = none) := by
  obtain ⟨hedges, a, hba, hm⟩ := init_ok_elim linear q o t m h
  obtain ⟨hself, hpw⟩ := buildAdj_ok_structural q a hba
  obtain ⟨res, hres, hA, hB, hK⟩ := buildAdj_ok_spec q [] hself hpw
    (by intro p hp; simp [adjGet, dget]) (by intro x y; simp [adjGet, dget])
  obtain rfl : res = a := by
    rw [hres] at hba
    injection hba with hh
  subst hm
  have hiso : ∀ x, (dget (wrapAdj res) x).isSome = (dget res x).isSome := by
    intro x
    rw [dget_wrapAdj]
    cases dget res x <;> rfl
  have hiff : ∀ x, (dget (wrapAdj res) x).isSome = true ↔
      ∃ p ∈ q, x = p.1.1 ∨ x = p.1.2 := by
    intro x
    rw [hiso, hK x]
    show ((dget ([] : Dict K (Dict K ℚ)) x).isSome || _) = true ↔ _
    simp only [dget, Option.isSome_none, Bool.false_or, List.any_eq_true,
      Bool.or_eq_true, decide_eq_true_eq]
  refine ⟨hiff, ?_⟩
  intro x hx hno
  have : ¬ (dget (wrapAdj res) x).isSome = true := by
    intro hs
    obtain ⟨p, hp, hor⟩ := (hiff x).mp hs
    rcases hor with hor | hor
    · exact (hno p hp).1 hor
    · exact (hno p hp).2 hor
  exact Option.not_isSome_iff_eq_none.mp (by simpa using this)

/-- Witness for C10 at a construction with an isolated variable. -/
theorem C10_adj_keys_are_quadratic_vars_witness :
    (init [(0, (1 : ℚ)), (1, 2), (2, 5)] (some [((0, 1), 3)]) 0 Vartype.SPIN =
      .ok ⟨[(0, 1), (1, 2), (2, 5)], [((0, 1), 3)],
        wrapAdj [(0, [(1, 3)]), (1, [(0, 3)])], 0, .SPIN⟩) ∧
    ((∀ x, (dget (⟨[(0, (1 : ℚ)), (1, 2), (2, 5)], [((0, 1), 3)],
        wrapAdj [(0, [(1, 3)]), (1, [(0, 3)])], 0, .SPIN⟩ : BQM ℕ).adj x).isSome = true ↔
        ∃ p ∈ (⟨[(0, (1 : ℚ)), (1, 2), (2, 5)], [((0, 1), 3)],
          wrapAdj [(0, [(1, 3)]), (1, [(0, 3)])], 0, .SPIN⟩ : BQM ℕ).quadratic,
          x = p.1.1 ∨ x = p.1.2) ∧
     (∀ x, x ∈ dkeys (⟨[(0, (1 : ℚ)), (1, 2), (2, 5)], [((0, 1), 3)],
        wrapAdj [(0, [(1, 3)]), (1, [(0, 3)])], 0, .SPIN⟩ : BQM ℕ).linear →
       (∀ p ∈ (⟨[(0, (1 : ℚ)), (1, 2), (2, 5)], [((0, 1), 3)],
          wrapAdj [(0, [(1, 3)]), (1, [(0, 3)])], 0, .SPIN⟩ : BQM ℕ).quadratic,
          x ≠ p.1.1 ∧ x ≠ p.1.2) →
       dget (⟨[(0, (1 : ℚ)), (1, 2), (2, 5)], [((0, 1), 3)],
        wrapAdj [(0, [(1, 3)]), (1, [(0, 3)])], 0, .SPIN⟩ : BQM ℕ).adj x = none)) :=
  ⟨by rfl, C10_adj_keys_are_quadratic_vars [(0, 1), (1, 2), (2, 5)] [((0, 1), 3)]
    0 .SPIN _ (by rfl)⟩

end ClaimsAdjacency

section EnergyTransfer

variable [DecidableEq K]

theorem dkeys_map_val (d : Dict K ℚ) (f : K × ℚ → ℚ) :
    dkeys (d.map (fun p => (p.1, f p))) = dkeys d := by
  unfold dkeys
  rw [List.map_map]
  rfl

/-- The `_binary_to_spin` output evaluated at any spin sample equals the
original binary data evaluated at the mapped binary sample `x = (s + 1)/2`
(a polynomial identity, exact over `ℚ`). -/
theorem binary_to_spin_energy (linear : Dict K ℚ) (q : Dict (K × K) ℚ) (o : ℚ)
    (hkeys : ∀ p ∈ q, p.1.1 ∈ dkeys linear ∧ p.1.2 ∈ dkeys linear)
    (hnd : (dkeys q).Nodup) (s : K → ℚ) :
    (binary_to_spin linear q o).2.2 + linSum (binary_to_spin linear q o).1 s
      + quadSum (binary_to_spin linear q o).2.1 s
    = o + linSum linear (fun v => (s v + 1) / 2)
      + quadSum q (fun v => (s v + 1) / 2) := by
  show (o + (dvals linear).sum / 2
      + (binaryToSpinLoop q (linear.map (fun p => (p.1, p.2 / 2)), [], 0)).2.2 / 4)
      + linSum (binaryToSpinLoop q (linear.map (fun p => (p.1, p.2 / 2)), [], 0)).1 s
      + quadSum (binaryToSpinLoop q (linear.map (fun p => (p.1, p.2 / 2)), [], 0)).2.1 s
    = o + linSum linear (fun v => (s v + 1) / 2)
      + quadSum q (fun v => (s v + 1) / 2)
  have hk0 : ∀ p ∈ q, p.1.1 ∈ dkeys (linear.map (fun p => (p.1, p.2 / 2))) ∧
      p.1.2 ∈ dkeys (linear.map (fun p => (p.1, p.2 / 2))) := by
    intro p hp
    rw [dkeys_map_val]
    exact hkeys p hp
  rw [binaryToSpinLoop_linSum q _ [] 0 s hk0,
    binaryToSpinLoop_J q _ [] 0 hnd (by intro p hp; simp [dkeys]),
    binaryToSpinLoop_qoff, List.nil_append, quadSum_map_quarter,
    quadSum_filter_nonzero, linSum_map_half, linSum_spin_substitution,
    quadSum_spin_substitution]
  ring

/-- The `_spin_to_binary` output evaluated at any binary sample equals the
original spin data evaluated at the mapped spin sample `s = 2x - 1`. -/
theorem spin_to_binary_energy (linear : Dict K ℚ) (q : Dict (K × K) ℚ) (o : ℚ)
    (hkeys : ∀ p ∈ q, p.1.1 ∈ dkeys linear ∧ p.1.2 ∈ dkeys linear)
    (hnd : (dkeys q).Nodup) (x : K → ℚ) :
    (spin_to_binary linear q o).2.2 + linSum (spin_to_binary linear q o).1 x
      + quadSum (spin_to_binary linear q o).2.1 x
    = o + linSum linear (fun v => 2 * x v - 1)
      + quadSum q (fun v => 2 * x v - 1) := by
  show (o + (dvals q).sum - (dvals linear).sum)
      + linSum (spinToBinaryLoop q (linear.map (fun p => (p.1, 2 * p.2)), [])).1 x
      + quadSum (spinToBinaryLoop q (linear.map (fun p => (p.1, 2 * p.2)), [])).2 x
    = o + linSum linear (fun v => 2 * x v - 1)
      + quadSum q (fun v => 2 * x v - 1)
  have hk0 : ∀ p ∈ q, p.1.1 ∈ dkeys (linear.map (fun p => (p.1, 2 * p.2))) ∧
      p.1.2 ∈ dkeys (linear.map (fun p => (p.1, 2 * p.2))) := by
    intro p hp
    rw [dkeys_map_val]
    exact hkeys p hp
  rw [spinToBinaryLoop_linSum q _ [] x hk0,
    spinToBinaryLoop_nq q _ [] hnd (by intro p hp; simp [dkeys]),
    List.nil_append, quadSum_map_four, quadSum_filter_nonzero,
    linSum_map_double, linSum_binary_substitution, quadSum_binary_substitution]
  ring

/-- Validity facts needed to re-run the constructor on a transform's output. -/
theorem transform_output_constructible (linear : Dict K ℚ) (q : Dict (K × K) ℚ)
    (hedges : ∀ p ∈ q, dhas linear p.1.1 = true ∧ dhas linear p.1.2 = true)
    (hself : ∀ p ∈ q, p.1.1 ≠ p.1.2)
    (hpw : q.Pairwise (fun p p' => p.1 ≠ p'.1 ∧ p.1 ≠ (p'.1.2, p'.1.1)))
    (nl : Dict K ℚ) (nq : Dict (K × K) ℚ) (g : ℚ → ℚ)
    (hnlkeys : dkeys nl = dkeys linear)
    (hnq : nq = (q.filter (fun p => !decide (p.2 = 0))).map (fun p => (p.1, g p.2))) :
    (∀ p ∈ nq, dhas nl p.1.1 = true ∧ dhas nl p.1.2 = true) ∧
    (∀ p ∈ nq, p.1.1 ≠ p.1.2) ∧
    nq.Pairwise (fun p p' => p.1 ≠ p'.1 ∧ p.1 ≠ (p'.1.2, p'.1.1)) := by
  subst hnq
  have hmem : ∀ p', p' ∈ (q.filter (fun p => !decide (p.2 = 0))).map
      (fun p => (p.1, g p.2)) → ∃ p ∈ q, p'.1 = p.1 := by
    intro p' hp'
    obtain ⟨p, hp, rfl⟩ := List.mem_map.mp hp'
    exact ⟨p, List.mem_of_mem_filter hp, rfl⟩
  refine ⟨?_, ?_, ?_⟩
  · intro p' hp'
    obtain ⟨p, hp, he⟩ := hmem p' hp'
    rw [he]
    have := hedges p hp
    constructor
    · rw [dhas_iff_mem_dkeys, hnlkeys, ← dhas_iff_mem_dkeys]
      exact this.1
    · rw [dhas_iff_mem_dkeys, hnlkeys, ← dhas_iff_mem_dkeys]
      exact this.2
  · intro p' hp'
    obtain ⟨p, hp, he⟩ := hmem p' hp'
    rw [he]
    exact hself p hp
  · have hfil : (q.filter (fun p => !decide (p.2 = 0))).Pairwise
        (fun p p' => p.1 ≠ p'.1 ∧ p.1 ≠ (p'.1.2, p'.1.1)) :=
      hpw.sublist (List.filter_sublist q)
    exact List.pairwise_map.mpr hfil

end EnergyTransfer

section ClaimEnergy

/-- C1: changing vartype preserves energy exactly under the domain mapping.
For a BINARY model constructed from `(linear, quadratic, offset)` and every
sample `x` with values in {0, 1}, `energy x` equals the energy of the
`change_vartype SPIN` result at the spin sample `2x - 1`; symmetrically, for
a SPIN model and every sample `s` with values in {-1, +1}, `energy s`
equals the energy of the `change_vartype BINARY` result at the binary
sample `(s + 1)/2` (exact over rational arithmetic). -/
theorem C1_change_vartype_preserves_energy [DecidableEq K]
    (linear : Dict K ℚ) (q : Dict (K × K) ℚ) (o : ℚ)
    (hn : (dkeys linear).Nodup) (mB mS : BQM K) (x s : K → ℚ) :
    (init linear (some q) o .BINARY = .ok mB → (∀ v, x v = 0 ∨ x v = 1) →
      ∃ m', change_vartype mB .SPIN = .ok m' ∧
        energy mB x = energy m' (fun v => 2 * x v - 1)) ∧
    (init linear (some q) o .SPIN = .ok mS → (∀ v, s v = -1 ∨ s v = 1) →
      ∃ m', change_vartype mS .BINARY = .ok m' ∧
        energy mS s = energy m' (fun v => (s v + 1) / 2)) := by
  constructor
  · intro h hx
    obtain ⟨hedges, a, hba, hm⟩ := init_ok_elim linear q o .BINARY mB h
    obtain ⟨hself, hpw⟩ := buildAdj_ok_structural q a hba
    have hkeys : ∀ p ∈ q, p.1.1 ∈ dkeys linear ∧ p.1.2 ∈ dkeys linear := by
      intro p hp
      have he := hedges p hp
      exact ⟨(dhas_iff_mem_dkeys _ _).mp he.1, (dhas_iff_mem_dkeys _ _).mp he.2⟩
    have hnd : (dkeys q).Nodup :=
      List.pairwise_map.mpr (hpw.imp (fun hpp => hpp.1))
    have hJ : (binary_to_spin linear q o).2.1 =
        (q.filter (fun p => !decide (p.2 = 0))).map (fun p => (p.1, p.2 / 4)) := by
      show (binaryToSpinLoop q (linear.map (fun p => (p.1, p.2 / 2)), [], 0)).2.1 = _
      rw [binaryToSpinLoop_J q _ [] 0 hnd (by intro p hp; simp [dkeys]),
        List.nil_append]
    have hkeys' : dkeys (binary_to_spin linear q o).1 = dkeys linear := by
      show dkeys (binaryToSpinLoop q (linear.map (fun p => (p.1, p.2 / 2)), [], 0)).1 = _
      rw [dkeys_binaryToSpinLoop, dkeys_map_val]
    obtain ⟨he', hs', hp'⟩ := transform_output_constructible linear q hedges hself hpw
      (binary_to_spin linear q o).1 (binary_to_spin linear q o).2.1
      (fun c => c / 4) hkeys' hJ
    obtain ⟨a', hba', hok'⟩ := init_ok_construct (binary_to_spin linear q o).1
      (binary_to_spin linear q o).2.1 (binary_to_spin linear q o).2.2 .SPIN he' hs' hp'
    subst hm
    have hcv : change_vartype (⟨linear, q, wrapAdj a, o, .BINARY⟩ : BQM K) .SPIN =
        init (binary_to_spin linear q o).1 (some (binary_to_spin linear q o).2.1)
          (binary_to_spin linear q o).2.2 .SPIN := by
      simp only [change_vartype]
      rw [if_neg (by decide)]
    refine ⟨_, by rw [hcv, hok'], ?_⟩
    show o + linSum linear x + quadSum q x =
      (binary_to_spin linear q o).2.2
        + linSum (binary_to_spin linear q o).1 (fun v => 2 * x v - 1)
        + quadSum (binary_to_spin linear q o).2.1 (fun v => 2 * x v - 1)
    rw [binary_to_spin_energy linear q o hkeys hnd (fun v => 2 * x v - 1)]
    rw [show (fun v => (2 * x v - 1 + 1) / 2) = x from funext (fun v => by ring)]
  · intro h hs
    obtain ⟨hedges, a, hba, hm⟩ := init_ok_elim linear q o .SPIN mS h
    obtain ⟨hself, hpw⟩ := buildAdj_ok_structural q a hba
    have hkeys : ∀ p ∈ q, p.1.1 ∈ dkeys linear ∧ p.1.2 ∈ dkeys linear := by
      intro p hp
      have he := hedges p hp
      exact ⟨(dhas_iff_mem_dkeys _ _).mp he.1, (dhas_iff_mem_dkeys _ _).mp he.2⟩
    have hnd : (dkeys q).Nodup :=
      List.pairwise_map.mpr (hpw.imp (fun hpp => hpp.1))
    have hJ : (spin_to_binary linear q o).2.1 =
        (q.filter (fun p => !decide (p.2 = 0))).map (fun p => (p.1, 4 * p.2)) := by
      show (spinToBinaryLoop q (linear.map (fun p => (p.1, 2 * p.2)), [])).2 = _
      rw [spinToBinaryLoop_nq q _ [] hnd (by intro p hp; simp [dkeys]),
        List.nil_append]
    have hkeys' : dkeys (spin_to_binary linear q o).1 = dkeys linear := by
      show dkeys (spinToBinaryLoop q (linear.map (fun p => (p.1, 2 * p.2)), [])).1 = _
      rw [dkeys_spinToBinaryLoop, dkeys_map_val]
    obtain ⟨he', hs', hp'⟩ := transform_output_constructible linear q hedges hself hpw
      (spin_to_binary linear q o).1 (spin_to_binary linear q o).2.1
      (fun c => 4 * c) hkeys' hJ
    obtain ⟨a', hba', hok'⟩ := init_ok_construct (spin_to_binary linear q o).1
      (spin_to_binary linear q o).2.1 (spin_to_binary linear q o).2.2 .BINARY he' hs' hp'
    subst hm
    have hcv : change_vartype (⟨linear, q, wrapAdj a, o, .SPIN⟩ : BQM K) .BINARY =
        init (spin_to_binary linear q o).1 (some (spin_to_binary linear q o).2.1)
          (spin_to_binary linear q o).2.2 .BINARY := by
      simp only [change_vartype]
      rw [if_neg (by decide)]
    refine ⟨_, by rw [hcv, hok'], ?_⟩
    show o + linSum linear s + quadSum q s =
      (spin_to_binary linear q o).2.2
        + linSum (spin_to_binary linear q o).1 (fun v => (s v + 1) / 2)
        + quadSum (spin_to_binary linear q o).2.1 (fun v => (s v + 1) / 2)
    rw [spin_to_binary_energy linear q o hkeys hnd (fun v => (s v + 1) / 2)]
    rw [show (fun v => 2 * ((s v + 1) / 2) - 1) = s from funext (fun v => by ring)]

/-- Witness for C1 at a concrete two-variable model. -/
theorem C1_change_vartype_preserves_energy_witness :
    ((dkeys [(0, (2 : ℚ)), (1, 3)]).Nodup) ∧
    (init [(0, (2 : ℚ)), (1, 3)] (some [((0, 1), 5)]) 7 .BINARY =
      .ok ⟨[(0, 2), (1, 3)], [((0, 1), 5)],
        wrapAdj [(0, [(1, 5)]), (1, [(0, 5)])], 7, .BINARY⟩) ∧
    (init [(0, (2 : ℚ)), (1, 3)] (some [((0, 1), 5)]) 7 .SPIN =
      .ok ⟨[(0, 2), (1, 3)], [((0, 1), 5)],
        wrapAdj [(0, [(1, 5)]), (1, [(0, 5)])], 7, .SPIN⟩) ∧
    (∀ v : ℕ, (1 : ℚ) = 0 ∨ (1 : ℚ) = 1) ∧
    (∀ v : ℕ, (1 : ℚ) = -1 ∨ (1 : ℚ) = 1) ∧
    (∃ m', change_vartype (⟨[(0, (2 : ℚ)), (1, 3)], [((0, 1), 5)],
        wrapAdj [(0, [(1, 5)]), (1, [(0, 5)])], 7, .BINARY⟩ : BQM ℕ) .SPIN = .ok m' ∧
      energy (⟨[(0, (2 : ℚ)), (1, 3)], [((0, 1), 5)],
        wrapAdj [(0, [(1, 5)]), (1, [(0, 5)])], 7, .BINARY⟩ : BQM ℕ)
          (fun _ => 1)
        = energy m' (fun v => 2 * (fun _ => (1 : ℚ)) v - 1)) ∧
    (∃ m', change_vartype (⟨[(0, (2 : ℚ)), (1, 3)], [((0, 1), 5)],
        wrapAdj [(0, [(1, 5)]), (1, [(0, 5)])], 7, .SPIN⟩ : BQM ℕ) .BINARY = .ok m' ∧
      energy (⟨[(0, (2 : ℚ)), (1, 3)], [((0, 1), 5)],
        wrapAdj [(0, [(1, 5)]), (1, [(0, 5)])], 7, .SPIN⟩ : BQM ℕ)
          (fun _ => 1)
        = energy m' (fun v => ((fun _ => (1 : ℚ)) v + 1) / 2)) :=
  ⟨by decide, by rfl, by rfl, fun v => Or.inr rfl, fun v => Or.inr rfl,
    (C1_change_vartype_preserves_energy [(0, (2 : ℚ)), (1, 3)] [((0, 1), 5)] 7
      (by decide)
      ⟨[(0, 2), (1, 3)], [((0, 1), 5)], wrapAdj [(0, [(1, 5)]), (1, [(0, 5)])],
        7, .BINARY⟩
      ⟨[(0, 2), (1, 3)], [((0, 1), 5)], wrapAdj [(0, [(1, 5)]), (1, [(0, 5)])],
        7, .SPIN⟩
      (fun _ => 1) (fun _ => 1)).1 (by rfl) (fun v => Or.inr rfl),
    (C1_change_vartype_preserves_energy [(0, (2 : ℚ)), (1, 3)] [((0, 1), 5)] 7
      (by decide)
      ⟨[(0, 2), (1, 3)], [((0, 1), 5)], wrapAdj [(0, [(1, 5)]), (1, [(0, 5)])],
        7, .BINARY⟩
      ⟨[(0, 2), (1, 3)], [((0, 1), 5)], wrapAdj [(0, [(1, 5)]), (1, [(0, 5)])],
        7, .SPIN⟩
      (fun _ => 1) (fun _ => 1)).2 (by rfl) (fun v => Or.inr rfl)⟩

end ClaimEnergy

section QuboLemmas

variable [DecidableEq K]

theorem foldl_dinsert_append {A : Type w} (items : List A) (key : A → K)
    (val : A → V) :
    ∀ acc : Dict K V, (items.map key).Nodup →
    (∀ a ∈ items, key a ∉ dkeys acc) →
    items.foldl (fun d a => dinsert d (key a) (val a)) acc
      = acc ++ items.map (fun a => (key a, val a)) := by
  induction items with
  | nil => intro acc _ _; simp
  | cons hd tl ih =>
      intro acc hnd hfresh
      simp only [List.map_cons, List.nodup_cons] at hnd
      simp only [List.foldl_cons, List.map_cons]
      rw [dinsert_of_not_mem _ _ _ (hfresh hd (List.mem_cons_self _ _))]
      rw [ih (acc ++ [(key hd, val hd)]) hnd.2 (by
        intro a ha
        rw [dkeys_append]
        simp only [List.mem_append, dkeys, List.map_cons, List.map_nil,
          List.mem_singleton]
        push_neg
        refine ⟨hfresh a (List.mem_cons_of_mem _ ha), ?_⟩
        intro hc
        exact hnd.1 (hc ▸ List.mem_map.mpr ⟨a, ha, rfl⟩))]
      simp

theorem map_pair_eta (l : List (K × V)) : l.map (fun p => (p.1, p.2)) = l := by
  induction l with
  | nil => rfl
  | cons hd tl ih => simp [ih]

theorem dget_selfpairs (linear : Dict K ℚ) (v : K) :
    dget (linear.map (fun p => ((p.1, p.1), p.2))) (v, v) = dget linear v := by
  induction linear with
  | nil => rfl
  | cons hd tl ih =>
      by_cases hv : v = hd.1
      · simp [dget, hv]
      · have : ((v, v) = (hd.1, hd.1)) = False := by
          simp [Prod.ext_iff, hv]
        simp [dget, this, hv, ih]

theorem dget_selfpairs_offdiag (linear : Dict K ℚ) (p : K × K) (h : p.1 ≠ p.2) :
    dget (linear.map (fun q => ((q.1, q.1), q.2))) p = none := by
  induction linear with
  | nil => rfl
  | cons hd tl ih =>
      have : (p = (hd.1, hd.1)) = False := by
        simp only [eq_iff_iff, iff_false]
        intro hc
        apply h
        rw [hc]
      simp [dget, this, ih]

theorem selfpairs_keys (linear : Dict K ℚ) :
    dkeys (linear.map (fun p => ((p.1, p.1), p.2)))
      = linear.map (fun p => (p.1, p.1)) := by
  unfold dkeys
  rw [List.map_map]
  rfl

end QuboLemmas

section ClaimQubo

/-- C6: on a validly constructed BINARY model, `as_qubo()` returns offset
unchanged and the dict whose keys are exactly the self-pairs `(v, v)` for
`v` in `linear` (with value `linear[v]`) together with the keys of
`quadratic` (with unchanged bias); in particular for
linear={0:0, 1:0}, quadratic={(0,1):1}, offset=0.0, vartype=BINARY the
result is ({(0,0):0, (1,1):0, (0,1):1}, 0.0). -/
theorem C6_as_qubo_binary [DecidableEq K] (m : BQM K) (hm : Valid m)
    (hv : m.vartype = .BINARY) :
    ((as_qubo m).2 = m.offset ∧
     (∀ v, v ∈ dkeys m.linear → dget (as_qubo m).1 (v, v) = dget m.linear v) ∧
     (∀ p, p ∈ dkeys m.quadratic → dget (as_qubo m).1 p = dget m.quadratic p) ∧
     (∀ p, p ∈ dkeys (as_qubo m).1 ↔
        (∃ v ∈ dkeys m.linear, p = (v, v)) ∨ p ∈ dkeys m.quadratic)) ∧
    (match init [(0, (0 : ℚ)), (1, 0)] (some [((0, 1), 1)]) 0 Vartype.BINARY with
      | .ok m₀ => as_qubo m₀ = ([((0, 0), 0), ((1, 1), 0), ((0, 1), 1)], 0)
      | .error _ => False) := by
  have hqubo : as_qubo m =
      (m.quadratic.foldl (fun d p => dinsert d p.1 p.2)
        (m.linear.foldl (fun d p => dinsert d (p.1, p.1) p.2) []), m.offset) := by
    simp only [as_qubo, hv]
  have hnd1 : (m.linear.map (fun p => (p.1, p.1))).Nodup := by
    have : (fun p : K × ℚ => (p.1, p.1)) = (fun k => (k, k)) ∘ Prod.fst := rfl
    rw [this, ← List.map_map]
    exact hm.lin_nodup.map (fun a b hab => congrArg Prod.fst hab)
  have hfold1 : m.linear.foldl (fun d p => dinsert d (p.1, p.1) p.2) []
      = m.linear.map (fun p => ((p.1, p.1), p.2)) := by
    rw [foldl_dinsert_append m.linear (fun p => (p.1, p.1)) (fun p => p.2) []
      hnd1 (by intro a _; simp [dkeys])]
    simp
  have hndq : (m.quadratic.map Prod.fst).Nodup :=
    List.pairwise_map.mpr (hm.pair_good.imp (fun hpp => hpp.1))
  have hfold2 : m.quadratic.foldl (fun d p => dinsert d p.1 p.2)
        (m.linear.map (fun p => ((p.1, p.1), p.2)))
      = m.linear.map (fun p => ((p.1, p.1), p.2)) ++ m.quadratic := by
    rw [foldl_dinsert_append m.quadratic Prod.fst Prod.snd _ hndq (by
      intro a ha
      rw [selfpairs_keys]
      intro hc
      obtain ⟨p, _, hpc⟩ := List.mem_map.mp hc
      have h1 : p.1 = a.1.1 := congrArg Prod.fst hpc
      have h2 : p.1 = a.1.2 := congrArg Prod.snd hpc
      exact hm.no_self a ha (h1 ▸ h2))]
    rw [map_pair_eta]
  have hq1 : (as_qubo m).1
      = m.linear.map (fun p => ((p.1, p.1), p.2)) ++ m.quadratic := by
    rw [hqubo]
    show m.quadratic.foldl _ (m.linear.foldl _ []) = _
    rw [hfold1, hfold2]
  refine ⟨⟨by rw [hqubo], ?_, ?_, ?_⟩, by rfl⟩
  · intro v hv'
    rw [hq1, dget_append, dget_selfpairs]
    cases h : dget m.linear v with
    | none =>
        rw [dget_eq_none_iff] at h
        exact absurd hv' h
    | some b => rfl
  · intro p hp
    obtain ⟨b, hb⟩ := (mem_dkeys_iff_entry _ _).mp hp
    have hps : p.1 ≠ p.2 := hm.no_self (p, b) hb
    rw [hq1, dget_append, dget_selfpairs_offdiag m.linear p hps]
  · intro p
    rw [hq1, dkeys_append, selfpairs_keys]
    simp only [List.mem_append, List.mem_map]
    constructor
    · rintro (⟨q', hq', rfl⟩ | hp)
      · exact Or.inl ⟨q'.1, (mem_dkeys_iff_entry _ _).mpr ⟨q'.2, hq'⟩, rfl⟩
      · exact Or.inr hp
    · rintro (⟨v, hv', rfl⟩ | hp)
      · obtain ⟨b, hb⟩ := (mem_dkeys_iff_entry _ _).mp hv'
        exact Or.inl ⟨(v, b), hb, rfl⟩
      · exact Or.inr hp

/-- Witness for C6 at a concrete BINARY model. -/
theorem C6_as_qubo_binary_witness :
    Valid (⟨[(0, (2 : ℚ)), (1, 3)], [((0, 1), 5)],
      wrapAdj [(0, [(1, 5)]), (1, [(0, 5)])], 7, .BINARY⟩ : BQM ℕ) ∧
    (((as_qubo (⟨[(0, (2 : ℚ)), (1, 3)], [((0, 1), 5)],
        wrapAdj [(0, [(1, 5)]), (1, [(0, 5)])], 7, .BINARY⟩ : BQM ℕ)).2 = 7 ∧
      (∀ v, v ∈ dkeys [(0, (2 : ℚ)), (1, 3)] →
        dget (as_qubo (⟨[(0, (2 : ℚ)), (1, 3)], [((0, 1), 5)],
          wrapAdj [(0, [(1, 5)]), (1, [(0, 5)])], 7, .BINARY⟩ : BQM ℕ)).1 (v, v)
          = dget [(0, (2 : ℚ)), (1, 3)] v) ∧
      (∀ p, p ∈ dkeys ([((0, 1), (5 : ℚ))] : Dict (ℕ × ℕ) ℚ) →
        dget (as_qubo (⟨[(0, (2 : ℚ)), (1, 3)], [((0, 1), 5)],
          wrapAdj [(0, [(1, 5)]), (1, [(0, 5)])], 7, .BINARY⟩ : BQM ℕ)).1 p
          = dget ([((0, 1), (5 : ℚ))] : Dict (ℕ × ℕ) ℚ) p) ∧
      (∀ p, p ∈ dkeys (as_qubo (⟨[(0, (2 : ℚ)), (1, 3)], [((0, 1), 5)],
          wrapAdj [(0, [(1, 5)]), (1, [(0, 5)])], 7, .BINARY⟩ : BQM ℕ)).1 ↔
        (∃ v ∈ dkeys [(0, (2 : ℚ)), (1, 3)], p = (v, v)) ∨
          p ∈ dkeys ([((0, 1), (5 : ℚ))] : Dict (ℕ × ℕ) ℚ))) ∧
     (match init [(0, (0 : ℚ)), (1, 0)] (some [((0, 1), 1)]) 0 Vartype.BINARY with
      | .ok m₀ => as_qubo m₀ = ([((0, 0), 0), ((1, 1), 0), ((0, 1), 1)], 0)
      | .error _ => False)) :=
  ⟨⟨by decide, by decide, by decide, by decide,
      ⟨[(0, [(1, (5 : ℚ))]), (1, [(0, 5)])], rfl, rfl⟩⟩,
    C6_as_qubo_binary _
      ⟨by decide, by decide, by decide, by decide,
        ⟨[(0, [(1, (5 : ℚ))]), (1, [(0, 5)])], rfl, rfl⟩⟩ rfl⟩

end ClaimQubo

section RelabelLemmas

variable {L : Type w} [DecidableEq K] [DecidableEq L]

theorem length_dkeys (d : Dict K V) : (dkeys d).length = d.length := by
  simp [dkeys]

theorem nodup_dkeys_dinsert (d : Dict K V) (k : K) (v : V)
    (h : (dkeys d).Nodup) : (dkeys (dinsert d k v)).Nodup := by
  rw [dkeys_dinsert]
  by_cases hm : k ∈ dkeys d
  · rwa [if_pos hm]
  · rw [if_neg hm]
    exact List.Nodup.append h (List.nodup_singleton k)
      (by simpa [List.disjoint_singleton] using hm)

theorem addKeys_cons (ks : List L) (x : L) (xs : List L) :
    addKeys ks (x :: xs) = addKeys (if x ∈ ks then ks else ks ++ [x]) xs := rfl

theorem addKeys_length_le (xs : List L) :
    ∀ ks : List L, (addKeys ks xs).length ≤ ks.length + xs.length := by
  induction xs with
  | nil => intro ks; simp [addKeys]
  | cons x xs ih =>
      intro ks
      rw [addKeys_cons]
      by_cases hm : x ∈ ks
      · rw [if_pos hm]
        calc (addKeys ks xs).length ≤ ks.length + xs.length := ih ks
          _ ≤ ks.length + (x :: xs).length := by
            simp only [List.length_cons]; omega
      · rw [if_neg hm]
        calc (addKeys (ks ++ [x]) xs).length ≤ (ks ++ [x]).length + xs.length :=
            ih (ks ++ [x])
          _ = ks.length + (x :: xs).length := by
            simp only [List.length_append, List.length_cons, List.length_nil]; omega

theorem addKeys_length_eq_iff (xs : List L) :
    ∀ ks : List L, ((addKeys ks xs).length = ks.length + xs.length ↔
      (xs.Nodup ∧ ∀ x ∈ xs, x ∉ ks)) := by
  induction xs with
  | nil => intro ks; simp [addKeys]
  | cons x xs ih =>
      intro ks
      rw [addKeys_cons]
      by_cases hm : x ∈ ks
      · rw [if_pos hm]
        constructor
        · intro hlen
          exfalso
          have := addKeys_length_le xs ks
          simp [List.length_cons] at hlen
          omega
        · rintro ⟨_, hnot⟩
          exact absurd hm (hnot x (List.mem_cons_self _ _))
      · rw [if_neg hm]
        have hlen : ks.length + (x :: xs).length = (ks ++ [x]).length + xs.length := by
          simp only [List.length_append, List.length_cons, List.length_nil]; omega
        rw [hlen, ih (ks ++ [x])]
        constructor
        · rintro ⟨hnd, hnot⟩
          have hx : x ∉ xs := by
            intro hc
            have := hnot x hc
            simp at this
          refine ⟨List.nodup_cons.mpr ⟨hx, hnd⟩, ?_⟩
          intro y hy
          rcases List.mem_cons.mp hy with rfl | hy
          · exact hm
          · intro hc
            exact (hnot y hy) (by simp [hc])
        · rintro ⟨hnd, hnot⟩
          rw [List.nodup_cons] at hnd
          refine ⟨hnd.2, ?_⟩
          intro y hy
          simp only [List.mem_append, List.mem_singleton]
          push_neg
          exact ⟨hnot y (List.mem_cons_of_mem _ hy), fun hc => hnd.1 (hc ▸ hy)⟩

theorem relabelLinear_ok_iff (mapping : Dict K L) (isH : L → Bool)
    (items : List (K × ℚ)) :
    ∀ acc : Dict L ℚ, (∃ nl, relabelLinear mapping isH items acc = .ok nl) ↔
      ∀ p ∈ items, ∃ l, dget mapping p.1 = some l ∧ isH l = true := by
  induction items with
  | nil =>
      intro acc
      constructor
      · intro _ p hp
        simp at hp
      · intro _
        exact ⟨acc, rfl⟩
  | cons hd tl ih =>
      intro acc
      obtain ⟨v, bias⟩ := hd
      cases hmap : dget mapping v with
      | none =>
          constructor
          · rintro ⟨nl, hnl⟩
            simp [relabelLinear, hmap] at hnl
          · intro hall
            obtain ⟨l, hl, _⟩ := hall (v, bias) (List.mem_cons_self _ _)
            rw [hmap] at hl
            exact absurd hl (by simp)
      | some l =>
          by_cases hh : isH l = true
          · have hred : relabelLinear mapping isH ((v, bias) :: tl) acc
                = relabelLinear mapping isH tl (dinsert acc l bias) := by
              simp [relabelLinear, hmap, hh]
            constructor
            · rintro ⟨nl, hnl⟩
              rw [hred] at hnl
              intro p hp
              rcases List.mem_cons.mp hp with rfl | hp
              · exact ⟨l, hmap, hh⟩
              · exact (ih _).mp ⟨nl, hnl⟩ p hp
            · intro hall
              obtain ⟨nl, hnl⟩ := (ih (dinsert acc l bias)).mpr
                (fun p hp => hall p (List.mem_cons_of_mem _ hp))
              exact ⟨nl, by rw [hred]; exact hnl⟩
          · constructor
            · rintro ⟨nl, hnl⟩
              simp [relabelLinear, hmap, hh] at hnl
            · intro hall
              obtain ⟨l', hl', hh'⟩ := hall (v, bias) (List.mem_cons_self _ _)
              rw [hmap] at hl'
              injection hl' with hl'
              exact absurd (hl' ▸ hh') hh

theorem relabelLinear_ok_eq (mapping : Dict K L) (isH : L → Bool) (f : K → L)
    (items : List (K × ℚ)) :
    ∀ acc : Dict L ℚ,
    (∀ p ∈ items, dget mapping p.1 = some (f p.1) ∧ isH (f p.1) = true) →
    relabelLinear mapping isH items acc
      = .ok (items.foldl (fun d p => dinsert d (f p.1) p.2) acc) := by
  induction items with
  | nil => intro acc _; rfl
  | cons hd tl ih =>
      intro acc hall
      obtain ⟨v, bias⟩ := hd
      obtain ⟨hmap, hh⟩ := hall (v, bias) (List.mem_cons_self _ _)
      have hred : relabelLinear mapping isH ((v, bias) :: tl) acc
          = relabelLinear mapping isH tl (dinsert acc (f (v, bias).1) bias) := by
        simp [relabelLinear, hmap, hh]
      rw [hred, ih _ (fun p hp => hall p (List.mem_cons_of_mem _ hp))]
      rfl

theorem relabelLinear_ok_keys (mapping : Dict K L) (isH : L → Bool)
    (items : List (K × ℚ)) :
    ∀ (acc : Dict L ℚ) (nl : Dict L ℚ),
    relabelLinear mapping isH items acc = .ok nl →
    dkeys nl = addKeys (dkeys acc)
      (items.filterMap (fun p => dget mapping p.1)) := by
  induction items with
  | nil =>
      intro acc nl h
      injection h with h
      subst h
      rfl
  | cons hd tl ih =>
      intro acc nl h
      obtain ⟨v, bias⟩ := hd
      cases hmap : dget mapping v with
      | none => simp [relabelLinear, hmap] at h
      | some l =>
          by_cases hh : isH l = true
          · have hred : relabelLinear mapping isH ((v, bias) :: tl) acc
                = relabelLinear mapping isH tl (dinsert acc l bias) := by
              simp [relabelLinear, hmap, hh]
            rw [hred] at h
            rw [ih _ _ h, dkeys_dinsert]
            have : List.filterMap (fun p => dget mapping p.1) ((v, bias) :: tl)
                = l :: List.filterMap (fun p => dget mapping p.1) tl := by
              simp [List.filterMap_cons, hmap]
            rw [this, addKeys_cons]
          · simp [relabelLinear, hmap, hh] at h

theorem filterMap_dget_length (mapping : Dict K L) (items : List (K × ℚ))
    (htot : ∀ p ∈ items, (dget mapping p.1).isSome = true) :
    (items.filterMap (fun p => dget mapping p.1)).length = items.length := by
  induction items with
  | nil => rfl
  | cons hd tl ih =>
      obtain ⟨l, hl⟩ := Option.isSome_iff_exists.mp (htot hd (List.mem_cons_self _ _))
      simp only [List.filterMap_cons, hl, List.length_cons]
      rw [ih (fun p hp => htot p (List.mem_cons_of_mem _ hp))]

theorem mem_filterMap_dget (mapping : Dict K L) (items : List (K × ℚ))
    (l : L) :
    l ∈ items.filterMap (fun p => dget mapping p.1) ↔
      ∃ p ∈ items, dget mapping p.1 = some l := by
  simp [List.mem_filterMap]

theorem inj_of_images_nodup (mapping : Dict K L) (items : List (K × ℚ))
    (hnd : (dkeys items).Nodup)
    (himg : (items.filterMap (fun p => dget mapping p.1)).Nodup) :
    ∀ u ∈ dkeys items, ∀ v ∈ dkeys items, ∀ l,
      dget mapping u = some l → dget mapping v = some l → u = v := by
  induction items with
  | nil => intro u hu; simp [dkeys] at hu
  | cons hd tl ih =>
      intro u hu v hv l hul hvl
      by_cases huv : u = v
      · exact huv
      exfalso
      simp only [dkeys, List.map_cons, List.mem_cons] at hu hv
      have hl_mem : ∀ w, w ∈ dkeys tl → dget mapping w = some l →
          l ∈ tl.filterMap (fun p => dget mapping p.1) := by
        intro w hw hwl
        obtain ⟨b, hb⟩ := (mem_dkeys_iff_entry tl w).mp hw
        exact List.mem_filterMap.mpr ⟨(w, b), hb, by simpa using hwl⟩
      simp only [dkeys, List.map_cons, List.nodup_cons] at hnd
      rcases hu with rfl | hu
      · rcases hv with hv | hv
        · exact huv hv.symm
        · have h1 : List.filterMap (fun p => dget mapping p.1) (hd :: tl)
              = l :: List.filterMap (fun p => dget mapping p.1) tl := by
            simp [List.filterMap_cons, hul]
          rw [h1, List.nodup_cons] at himg
          exact himg.1 (hl_mem v hv hvl)
      · rcases hv with rfl | hv
        · have h1 : List.filterMap (fun p => dget mapping p.1) (hd :: tl)
              = l :: List.filterMap (fun p => dget mapping p.1) tl := by
            simp [List.filterMap_cons, hvl]
          rw [h1, List.nodup_cons] at himg
          exact himg.1 (hl_mem u hu hul)
        · have himg' : (tl.filterMap (fun p => dget mapping p.1)).Nodup := by
            cases hmap : dget mapping hd.1 with
            | none => rw [List.filterMap_cons, hmap] at himg; exact himg
            | some l' =>
                rw [List.filterMap_cons, hmap] at himg
                exact (List.nodup_cons.mp himg).2
          exact huv (ih hnd.2 himg' u hu v hv l hul hvl)

theorem images_nodup_of_inj (mapping : Dict K L) (items : List (K × ℚ))
    (hnd : (dkeys items).Nodup)
    (hinj : ∀ u ∈ dkeys items, ∀ v ∈ dkeys items, ∀ l,
      dget mapping u = some l → dget mapping v = some l → u = v) :
    (items.filterMap (fun p => dget mapping p.1)).Nodup := by
  induction items with
  | nil => simp
  | cons hd tl ih =>
      simp only [dkeys, List.map_cons, List.nodup_cons] at hnd
      have htl : (tl.filterMap (fun p => dget mapping p.1)).Nodup :=
        ih hnd.2 (fun u hu v hv l hul hvl =>
          hinj u (List.mem_cons_of_mem _ hu)
            v (List.mem_cons_of_mem _ hv) l hul hvl)
      cases hmap : dget mapping hd.1 with
      | none => simpa [List.filterMap_cons, hmap] using htl
      | some l =>
          rw [List.filterMap_cons, hmap]
          refine List.nodup_cons.mpr ⟨?_, htl⟩
          intro hc
          obtain ⟨p, hp, hpl⟩ := List.mem_filterMap.mp hc
          have : hd.1 = p.1 := hinj hd.1 (List.mem_cons_self _ _)
            p.1 (List.mem_cons_of_mem _
              ((mem_dkeys_iff_entry tl p.1).mpr ⟨p.2, hp⟩))
            l hmap hpl
          exact hnd.1 (this ▸ List.mem_map.mpr ⟨p, hp, rfl⟩)

end RelabelLemmas

section RelabelLemmas2

variable {L : Type w} [DecidableEq K] [DecidableEq L]

theorem relabelQuadratic_ok (mapping : Dict K L) (isH : L → Bool)
    (items : List ((K × K) × ℚ)) :
    ∀ acc : Dict (L × L) ℚ,
    (∀ p ∈ items, (∃ l, dget mapping p.1.1 = some l ∧ isH l = true) ∧
      (∃ l, dget mapping p.1.2 = some l ∧ isH l = true)) →
    ∃ nq, relabelQuadratic mapping isH items acc = .ok nq := by
  induction items with
  | nil => intro acc _; exact ⟨acc, rfl⟩
  | cons hd tl ih =>
      intro acc hall
      obtain ⟨⟨u, v⟩, bias⟩ := hd
      obtain ⟨⟨lu, hu, hhu⟩, ⟨lv, hv, hhv⟩⟩ := hall _ (List.mem_cons_self _ _)
      have hred : relabelQuadratic mapping isH (((u, v), bias) :: tl) acc
          = relabelQuadratic mapping isH tl (dinsert acc (lu, lv) bias) := by
        simp [relabelQuadratic, hu, hv, hhu, hhv]
      rw [hred]
      exact ih _ (fun p hp => hall p (List.mem_cons_of_mem _ hp))

theorem relabelQuadratic_ok_eq (mapping : Dict K L) (isH : L → Bool) (f : K → L)
    (items : List ((K × K) × ℚ)) :
    ∀ acc : Dict (L × L) ℚ,
    (∀ p ∈ items, dget mapping p.1.1 = some (f p.1.1) ∧ isH (f p.1.1) = true ∧
      dget mapping p.1.2 = some (f p.1.2) ∧ isH (f p.1.2) = true) →
    relabelQuadratic mapping isH items acc
      = .ok (items.foldl (fun d p => dinsert d (f p.1.1, f p.1.2) p.2) acc) := by
  induction items with
  | nil => intro acc _; rfl
  | cons hd tl ih =>
      intro acc hall
      obtain ⟨⟨u, v⟩, bias⟩ := hd
      obtain ⟨hu, hhu, hv, hhv⟩ := hall _ (List.mem_cons_self _ _)
      have hred : relabelQuadratic mapping isH (((u, v), bias) :: tl) acc
          = relabelQuadratic mapping isH tl
              (dinsert acc (f (u, v).1, f (u, v).2) bias) := by
        simp [relabelQuadratic, hu, hv, hhu, hhv]
      rw [hred, ih _ (fun p hp => hall p (List.mem_cons_of_mem _ hp))]
      rfl

theorem relabelNbrSet_ok (mapping : Dict K L) (isH : L → Bool) (vs : List K) :
    ∀ acc : List L,
    (∀ x ∈ vs, ∃ l, dget mapping x = some l ∧ isH l = true) →
    ∃ s, relabelNbrSet mapping isH vs acc = .ok s := by
  induction vs with
  | nil => intro acc _; exact ⟨acc, rfl⟩
  | cons hd tl ih =>
      intro acc hall
      obtain ⟨l, hl, hh⟩ := hall hd (List.mem_cons_self _ _)
      have hred : relabelNbrSet mapping isH (hd :: tl) acc
          = relabelNbrSet mapping isH tl (setInsert acc l) := by
        simp [relabelNbrSet, hl, hh]
      rw [hred]
      exact ih _ (fun x hx => hall x (List.mem_cons_of_mem _ hx))

theorem relabelAdj_ok (mapping : Dict K L) (isH : L → Bool)
    (entries : List (K × Nbrs K)) :
    ∀ acc : Dict L (Nbrs L),
    (∀ e ∈ entries, (∃ l, dget mapping e.1 = some l ∧ isH l = true) ∧
      (∀ x ∈ e.2.iter, ∃ l, dget mapping x = some l ∧ isH l = true)) →
    ∃ na, relabelAdj mapping isH entries acc = .ok na := by
  induction entries with
  | nil => intro acc _; exact ⟨acc, rfl⟩
  | cons hd tl ih =>
      intro acc hall
      obtain ⟨u, nbrs⟩ := hd
      obtain ⟨⟨lu, hu, hhu⟩, hin⟩ := hall _ (List.mem_cons_self _ _)
      obtain ⟨s, hset⟩ := relabelNbrSet_ok mapping isH nbrs.iter [] hin
      have hred : relabelAdj mapping isH ((u, nbrs) :: tl) acc
          = relabelAdj mapping isH tl (dinsert acc lu (.set s)) := by
        simp [relabelAdj, hu, hset, hhu]
      rw [hred]
      exact ih _ (fun e he => hall e (List.mem_cons_of_mem _ he))

theorem adjInsertHalf_nodup (adj : Dict K (Dict K ℚ)) (u v : K) (b : ℚ)
    (adj' : Dict K (Dict K ℚ)) (h : adjInsertHalf adj u v b = .ok adj')
    (hn : (dkeys adj).Nodup) : (dkeys adj').Nodup := by
  unfold adjInsertHalf at h
  cases hu : dget adj u with
  | none =>
      simp only [hu] at h
      injection h with h
      subst h
      exact nodup_dkeys_dinsert _ _ _ hn
  | some nbrs =>
      simp only [hu] at h
      by_cases hv : (dget nbrs v).isSome = true
      · rw [if_pos hv] at h
        exact Except.noConfusion h
      · rw [if_neg hv] at h
        injection h with h
        subst h
        exact nodup_dkeys_dinsert _ _ _ hn

theorem buildAdj_nodup_keys (pairs : List ((K × K) × ℚ)) :
    ∀ adj res, (dkeys adj).Nodup → buildAdj pairs adj = .ok res →
    (dkeys res).Nodup := by
  induction pairs with
  | nil =>
      intro adj res hn h
      injection h with h
      subst h
      exact hn
  | cons hd rest ih =>
      intro adj res hn h
      obtain ⟨⟨u, v⟩, b⟩ := hd
      by_cases huv : u = v
      · rw [show buildAdj (((u, v), b) :: rest) adj
            = .error "bias in quadratic is a linear bias" from by
          simp [buildAdj, huv]] at h
        exact Except.noConfusion h
      · cases h1 : adjInsertHalf adj u v b with
        | error e =>
            rw [show buildAdj (((u, v), b) :: rest) adj = .error e from by
              simp [buildAdj, huv, h1]] at h
            exact Except.noConfusion h
        | ok adj₁ =>
            cases h2 : adjInsertHalf adj₁ v u b with
            | error e =>
                rw [show buildAdj (((u, v), b) :: rest) adj = .error e from by
                  simp [buildAdj, huv, h1, h2]] at h
                exact Except.noConfusion h
            | ok adj₂ =>
                rw [show buildAdj (((u, v), b) :: rest) adj = buildAdj rest adj₂ from by
                  simp [buildAdj, huv, h1, h2]] at h
                exact ih adj₂ res
                  (adjInsertHalf_nodup _ _ _ _ _ h2
                    (adjInsertHalf_nodup _ _ _ _ _ h1 hn)) h

theorem valid_adj_vars (m : BQM K) (hm : Valid m) :
    ∀ e ∈ m.adj, e.1 ∈ dkeys m.linear ∧ ∀ x ∈ e.2.iter, x ∈ dkeys m.linear := by
  obtain ⟨a0, hba, hadj⟩ := hm.adj_spec
  obtain ⟨res, hres, hA, hB, hK⟩ := buildAdj_ok_spec m.quadratic []
    hm.no_self hm.pair_good
    (by intro p hp; simp [adjGet, dget]) (by intro x y; simp [adjGet, dget])
  obtain rfl : a0 = res := by
    rw [hres] at hba
    injection hba with hh
    exact hh.symm
  have handp : (dkeys a0).Nodup :=
    buildAdj_nodup_keys m.quadratic [] a0 (by simp [dkeys]) hba
  intro e he
  rw [hadj] at he
  obtain ⟨p, hp, hpe⟩ := List.mem_map.mp he
  subst hpe
  constructor
  · have h1 : (dget a0 p.1).isSome = true :=
      (dget_isSome_iff_mem_dkeys a0 p.1).mpr
        ((mem_dkeys_iff_entry a0 p.1).mpr ⟨p.2, hp⟩)
    rw [hK p.1] at h1
    simp only [dget, Option.isSome_none, Bool.false_or, List.any_eq_true,
      Bool.or_eq_true, decide_eq_true_eq] at h1
    obtain ⟨pq, hpq, hor⟩ := h1
    have hed := hm.edges pq hpq
    rcases hor with hor | hor
    · rw [hor]
      exact (dhas_iff_mem_dkeys _ _).mp hed.1
    · rw [hor]
      exact (dhas_iff_mem_dkeys _ _).mp hed.2
  · intro x hx
    have hget : dget a0 p.1 = some p.2 := dget_of_mem_nodup a0 p.1 p.2 handp hp
    have hsome : (adjGet a0 p.1 x).isSome = true := by
      unfold adjGet
      rw [hget]
      exact (dget_isSome_iff_mem_dkeys p.2 x).mpr hx
    cases hfp : findPair m.quadratic p.1 x with
    | some c =>
        have hmem := findPair_isSome_mem m.quadratic p.1 x (by rw [hfp]; rfl)
        rcases hmem with hmem | hmem
        · obtain ⟨bb, hbb⟩ := (mem_dkeys_iff_entry _ _).mp hmem
          exact (dhas_iff_mem_dkeys _ _).mp (hm.edges ((p.1, x), bb) hbb).2
        · obtain ⟨bb, hbb⟩ := (mem_dkeys_iff_entry _ _).mp hmem
          exact (dhas_iff_mem_dkeys _ _).mp (hm.edges ((x, p.1), bb) hbb).1
    | none =>
        rw [hB p.1 x hfp] at hsome
        simp [adjGet, dget] at hsome

end RelabelLemmas2

section ClaimRelabelUnchanged

/-- C9: whenever `relabel_variables` fails (missing variable, non-injective
mapping, or unhashable target), the model's `linear`, `quadratic`, `adj`,
`offset` and `vartype` are unchanged: every raise point (lines 234-243)
precedes the field assignments (lines 245-247). -/
theorem C9_relabel_failure_leaves_model_unchanged {L : Type w}
    [DecidableEq K] [DecidableEq L]
    (m : BQM K) (mapping : Dict K L) (isH : L → Bool) (e : String) (post : BQM K)
    (h : relabel_variables m mapping isH = .inr (e, post)) :
    post.linear = m.linear ∧ post.quadratic = m.quadratic ∧ post.adj = m.adj ∧
    post.offset = m.offset ∧ post.vartype = m.vartype := by
  have hpost : post = m := by
    unfold relabel_variables at h
    split at h
    · injection h with h
      exact (congrArg Prod.snd h).symm
    · split at h
      · injection h with h
        exact (congrArg Prod.snd h).symm
      · split at h
        · injection h with h
          exact (congrArg Prod.snd h).symm
        · split at h
          · injection h with h
            exact (congrArg Prod.snd h).symm
          · exact Sum.noConfusion h
  subst hpost
  exact ⟨rfl, rfl, rfl, rfl, rfl⟩

/-- Witness for C9 at a concrete failing relabel (empty mapping). -/
theorem C9_relabel_failure_leaves_model_unchanged_witness :
    (relabel_variables (⟨[(0, (1 : ℚ))], [], [], 0, .SPIN⟩ : BQM ℕ)
        ([] : Dict ℕ ℕ) (fun _ => true)
      = .inr ("no mapping for variable", ⟨[(0, (1 : ℚ))], [], [], 0, .SPIN⟩)) ∧
    ((⟨[(0, (1 : ℚ))], [], [], 0, .SPIN⟩ : BQM ℕ).linear
        = (⟨[(0, (1 : ℚ))], [], [], 0, .SPIN⟩ : BQM ℕ).linear ∧
      (⟨[(0, (1 : ℚ))], [], [], 0, .SPIN⟩ : BQM ℕ).quadratic
        = (⟨[(0, (1 : ℚ))], [], [], 0, .SPIN⟩ : BQM ℕ).quadratic ∧
      (⟨[(0, (1 : ℚ))], [], [], 0, .SPIN⟩ : BQM ℕ).adj
        = (⟨[(0, (1 : ℚ))], [], [], 0, .SPIN⟩ : BQM ℕ).adj ∧
      (⟨[(0, (1 : ℚ))], [], [], 0, .SPIN⟩ : BQM ℕ).offset
        = (⟨[(0, (1 : ℚ))], [], [], 0, .SPIN⟩ : BQM ℕ).offset ∧
      (⟨[(0, (1 : ℚ))], [], [], 0, .SPIN⟩ : BQM ℕ).vartype
        = (⟨[(0, (1 : ℚ))], [], [], 0, .SPIN⟩ : BQM ℕ).vartype) :=
  ⟨by rfl, C9_relabel_failure_leaves_model_unchanged
    (⟨[(0, (1 : ℚ))], [], [], 0, .SPIN⟩ : BQM ℕ) ([] : Dict ℕ ℕ) (fun _ => true)
    "no mapping for variable" (⟨[(0, (1 : ℚ))], [], [], 0, .SPIN⟩ : BQM ℕ) (by rfl)⟩

end ClaimRelabelUnchanged

section ClaimRelabelConditions

/-- C7: on a validly constructed model, `relabel_variables(mapping)`
succeeds exactly when the mapping supplies a hashable target for every
current variable and maps no two distinct variables to the same new label;
it fails with a `ValueError` when the mapping omits a variable, collapses
two variables onto one label, or maps a variable to an unhashable target. -/
theorem C7_relabel_error_conditions {L : Type w} [DecidableEq K] [DecidableEq L]
    (m : BQM K) (hm : Valid m) (mapping : Dict K L) (isH : L → Bool) :
    (∃ m', relabel_variables m mapping isH = .inl m') ↔
      ((∀ v ∈ dkeys m.linear, ∃ l, dget mapping v = some l ∧ isH l = true) ∧
       (∀ u ∈ dkeys m.linear, ∀ v ∈ dkeys m.linear, ∀ l,
          dget mapping u = some l → dget mapping v = some l → u = v)) := by
  constructor
  · rintro ⟨m', hs⟩
    unfold relabel_variables at hs
    split at hs
    · exact Sum.noConfusion hs
    · rename_i nl heq1
      split at hs
      · exact Sum.noConfusion hs
      · rename_i nq heq2
        split at hs
        · exact Sum.noConfusion hs
        · rename_i na heq3
          split at hs
          · exact Sum.noConfusion hs
          · rename_i hlen
            rw [not_not] at hlen
            have htot : ∀ v ∈ dkeys m.linear,
                ∃ l, dget mapping v = some l ∧ isH l = true := by
              intro v hv
              obtain ⟨b, hb⟩ := (mem_dkeys_iff_entry _ _).mp hv
              exact (relabelLinear_ok_iff mapping isH m.linear []).mp
                ⟨nl, heq1⟩ (v, b) hb
            refine ⟨htot, ?_⟩
            have hkeys := relabelLinear_ok_keys mapping isH m.linear [] nl heq1
            have htoti : ∀ p ∈ m.linear, (dget mapping p.1).isSome = true := by
              intro p hp
              obtain ⟨l, hl, _⟩ := htot p.1 ((mem_dkeys_iff_entry _ _).mpr ⟨p.2, hp⟩)
              rw [hl]
              rfl
            have hflen := filterMap_dget_length mapping m.linear htoti
            have hlen2 : (addKeys (dkeys ([] : Dict L ℚ))
                  (m.linear.filterMap (fun p => dget mapping p.1))).length
                = (dkeys ([] : Dict L ℚ)).length
                  + (m.linear.filterMap (fun p => dget mapping p.1)).length := by
              rw [← hkeys, length_dkeys, hlen, hflen]
              simp [dkeys]
            have himg := ((addKeys_length_eq_iff _ (dkeys ([] : Dict L ℚ))).mp hlen2).1
            exact inj_of_images_nodup mapping m.linear hm.lin_nodup himg
  · rintro ⟨htot, hinj⟩
    have htotE : ∀ p ∈ m.linear, ∃ l, dget mapping p.1 = some l ∧ isH l = true :=
      fun p hp => htot p.1 ((mem_dkeys_iff_entry _ _).mpr ⟨p.2, hp⟩)
    obtain ⟨nl, h1⟩ := (relabelLinear_ok_iff mapping isH m.linear []).mpr htotE
    obtain ⟨nq, h2⟩ := relabelQuadratic_ok mapping isH m.quadratic [] (by
      intro p hp
      have hed := hm.edges p hp
      exact ⟨htot p.1.1 ((dhas_iff_mem_dkeys _ _).mp hed.1),
             htot p.1.2 ((dhas_iff_mem_dkeys _ _).mp hed.2)⟩)
    obtain ⟨na, h3⟩ := relabelAdj_ok mapping isH m.adj [] (by
      intro e he
      have hv := valid_adj_vars m hm e he
      exact ⟨htot e.1 hv.1, fun x hx => htot x (hv.2 x hx)⟩)
    have htoti : ∀ p ∈ m.linear, (dget mapping p.1).isSome = true := by
      intro p hp
      obtain ⟨l, hl, _⟩ := htotE p hp
      rw [hl]
      rfl
    have hflen := filterMap_dget_length mapping m.linear htoti
    have himg := images_nodup_of_inj mapping m.linear hm.lin_nodup hinj
    have hkeys := relabelLinear_ok_keys mapping isH m.linear [] nl h1
    have hlen : nl.length = m.linear.length := by
      rw [← length_dkeys, hkeys,
        (addKeys_length_eq_iff _ (dkeys ([] : Dict L ℚ))).mpr
          ⟨himg, by intro x hx; simp [dkeys]⟩, hflen]
      simp [dkeys]
    refine ⟨⟨nl, nq, na, m.offset, m.vartype⟩, ?_⟩
    simp only [relabel_variables, h1, h2, h3]
    rw [if_neg (fun hc => hc hlen)]

/-- Witness for C7 at a concrete model and bijective mapping. -/
theorem C7_relabel_error_conditions_witness :
    Valid (⟨[(0, (2 : ℚ)), (1, 3)], [((0, 1), 5)],
      wrapAdj [(0, [(1, 5)]), (1, [(0, 5)])], 7, .SPIN⟩ : BQM ℕ) ∧
    ((∃ m', relabel_variables (⟨[(0, (2 : ℚ)), (1, 3)], [((0, 1), 5)],
        wrapAdj [(0, [(1, 5)]), (1, [(0, 5)])], 7, .SPIN⟩ : BQM ℕ)
        [(0, 10), (1, 11)] (fun _ => true) = .inl m') ↔
      ((∀ v ∈ dkeys [(0, (2 : ℚ)), (1, 3)],
          ∃ l, dget [(0, 10), (1, 11)] v = some l ∧ (fun _ => true) l = true) ∧
       (∀ u ∈ dkeys [(0, (2 : ℚ)), (1, 3)], ∀ v ∈ dkeys [(0, (2 : ℚ)), (1, 3)],
          ∀ l : ℕ, dget [(0, 10), (1, 11)] u = some l →
            dget [(0, 10), (1, 11)] v = some l → u = v))) :=
  ⟨⟨by decide, by decide, by decide, by decide,
      ⟨[(0, [(1, (5 : ℚ))]), (1, [(0, 5)])], rfl, rfl⟩⟩,
    C7_relabel_error_conditions
      (⟨[(0, (2 : ℚ)), (1, 3)], [((0, 1), 5)],
        wrapAdj [(0, [(1, 5)]), (1, [(0, 5)])], 7, .SPIN⟩ : BQM ℕ)
      ⟨by decide, by decide, by decide, by decide,
        ⟨[(0, [(1, (5 : ℚ))]), (1, [(0, 5)])], rfl, rfl⟩⟩
      [(0, 10), (1, 11)] (fun _ => true)⟩

end ClaimRelabelConditions

section ClaimRelabelEnergy

theorem linSum_map_key {L : Type w} [DecidableEq K] [DecidableEq L]
    (d : Dict K ℚ) (f : K → L) (sL : L → ℚ) :
    linSum (d.map (fun p => (f p.1, p.2))) sL = linSum d (fun v => sL (f v)) := by
  induction d with
  | nil => rfl
  | cons hd tl ih => simp only [List.map_cons, linSum_cons, ih]

theorem quadSum_map_key {L : Type w} [DecidableEq K] [DecidableEq L]
    (q : Dict (K × K) ℚ) (f : K → L) (sL : L → ℚ) :
    quadSum (q.map (fun p => ((f p.1.1, f p.1.2), p.2))) sL
      = quadSum q (fun v => sL (f v)) := by
  induction q with
  | nil => rfl
  | cons hd tl ih => simp only [List.map_cons, quadSum_cons, ih]

theorem quadSum_congr [DecidableEq K] (q : Dict (K × K) ℚ) (s₁ s₂ : K → ℚ)
    (h : ∀ p ∈ q, s₁ p.1.1 = s₂ p.1.1 ∧ s₁ p.1.2 = s₂ p.1.2) :
    quadSum q s₁ = quadSum q s₂ := by
  induction q with
  | nil => rfl
  | cons hd tl ih =>
      rw [quadSum_cons, quadSum_cons, (h hd (List.mem_cons_self _ _)).1,
        (h hd (List.mem_cons_self _ _)).2,
        ih (fun p hp => h p (List.mem_cons_of_mem _ hp))]

/-- C5: on a validly constructed model, a total injective relabeling with
hashable targets succeeds and preserves energy: the energy of the
correspondingly relabeled sample on the relabeled model equals the energy
of the original sample on the original model. -/
theorem C5_relabel_preserves_energy {L : Type w} [DecidableEq K] [DecidableEq L]
    (m : BQM K) (hm : Valid m) (mapping : Dict K L) (isH : L → Bool) (f : K → L)
    (hf : ∀ v ∈ dkeys m.linear, dget mapping v = some (f v))
    (hhash : ∀ v ∈ dkeys m.linear, isH (f v) = true)
    (hinj : ∀ u ∈ dkeys m.linear, ∀ v ∈ dkeys m.linear, f u = f v → u = v)
    (s : K → ℚ) (sL : L → ℚ) (hs : ∀ v ∈ dkeys m.linear, sL (f v) = s v) :
    ∃ m', relabel_variables m mapping isH = .inl m' ∧
      energy m' sL = energy m s := by
  have hfE : ∀ p ∈ m.linear,
      dget mapping p.1 = some (f p.1) ∧ isH (f p.1) = true := by
    intro p hp
    have hk := (mem_dkeys_iff_entry _ _).mpr ⟨p.2, hp⟩
    exact ⟨hf p.1 hk, hhash p.1 hk⟩
  have h1 := relabelLinear_ok_eq mapping isH f m.linear [] hfE
  have himg : (m.linear.map (fun p => f p.1)).Nodup := by
    have h : (List.map f (List.map Prod.fst m.linear)).Nodup :=
      List.Nodup.map_on
        (fun x hx y hy hxy => hinj x hx y hy hxy) hm.lin_nodup
    rw [List.map_map] at h
    exact h
  have hnl : m.linear.foldl (fun d p => dinsert d (f p.1) p.2) []
      = m.linear.map (fun p => (f p.1, p.2)) := by
    rw [foldl_dinsert_append m.linear (fun p => f p.1) (fun p => p.2) []
      himg (by intro a _; simp [dkeys])]
    simp
  have hfQ : ∀ p ∈ m.quadratic,
      dget mapping p.1.1 = some (f p.1.1) ∧ isH (f p.1.1) = true ∧
      dget mapping p.1.2 = some (f p.1.2) ∧ isH (f p.1.2) = true := by
    intro p hp
    have hed := hm.edges p hp
    have h1k := (dhas_iff_mem_dkeys _ _).mp hed.1
    have h2k := (dhas_iff_mem_dkeys _ _).mp hed.2
    exact ⟨hf _ h1k, hhash _ h1k, hf _ h2k, hhash _ h2k⟩
  have h2 := relabelQuadratic_ok_eq mapping isH f m.quadratic [] hfQ
  have hndq : (dkeys m.quadratic).Nodup :=
    List.pairwise_map.mpr (hm.pair_good.imp (fun hpp => hpp.1))
  have hentry : ∀ a ∈ m.quadratic, ∀ b ∈ m.quadratic, a.1 = b.1 → a = b := by
    intro a ha b hb hab
    by_contra hne
    have hpw : m.quadratic.Pairwise (fun a b => a.1 ≠ b.1) := by
      have h' : (List.map Prod.fst m.quadratic).Pairwise (fun a b => a ≠ b) := hndq
      exact List.pairwise_map.mp h'
    have hsymm : Symmetric (fun (a b : (K × K) × ℚ) => a.1 ≠ b.1) :=
      fun a b h he => h he.symm
    exact (hpw.forall hsymm ha hb hne) hab
  have hqimg : (m.quadratic.map (fun p => (f p.1.1, f p.1.2))).Nodup := by
    refine List.Nodup.map_on ?_ (List.Nodup.of_map Prod.fst hndq)
    intro a ha b hb hab
    have hed_a := hm.edges a ha
    have hed_b := hm.edges b hb
    have h11 : f a.1.1 = f b.1.1 := congrArg Prod.fst hab
    have h12 : f a.1.2 = f b.1.2 := congrArg Prod.snd hab
    have e1 : a.1.1 = b.1.1 := hinj a.1.1 ((dhas_iff_mem_dkeys _ _).mp hed_a.1)
      b.1.1 ((dhas_iff_mem_dkeys _ _).mp hed_b.1) h11
    have e2 : a.1.2 = b.1.2 := hinj a.1.2 ((dhas_iff_mem_dkeys _ _).mp hed_a.2)
      b.1.2 ((dhas_iff_mem_dkeys _ _).mp hed_b.2) h12
    exact hentry a ha b hb (Prod.ext e1 e2)
  have hnq : m.quadratic.foldl (fun d p => dinsert d (f p.1.1, f p.1.2) p.2) []
      = m.quadratic.map (fun p => ((f p.1.1, f p.1.2), p.2)) := by
    rw [foldl_dinsert_append m.quadratic (fun p => (f p.1.1, f p.1.2))
      (fun p => p.2) [] hqimg (by intro a _; simp [dkeys])]
    simp
  obtain ⟨na, h3⟩ := relabelAdj_ok mapping isH m.adj [] (by
    intro e he
    have hv := valid_adj_vars m hm e he
    exact ⟨⟨f e.1, hf e.1 hv.1, hhash e.1 hv.1⟩,
      fun x hx => ⟨f x, hf x (hv.2 x hx), hhash x (hv.2 x hx)⟩⟩)
  refine ⟨⟨m.linear.map (fun p => (f p.1, p.2)),
    m.quadratic.map (fun p => ((f p.1.1, f p.1.2), p.2)),
    na, m.offset, m.vartype⟩, ?_, ?_⟩
  · rw [hnl] at h1
    rw [hnq] at h2
    simp only [relabel_variables, h1, h2, h3]
    rw [if_neg (fun hc => hc (List.length_map _ _))]
  · show m.offset + linSum (m.linear.map (fun p => (f p.1, p.2))) sL
        + quadSum (m.quadratic.map (fun p => ((f p.1.1, f p.1.2), p.2))) sL
      = m.offset + linSum m.linear s + quadSum m.quadratic s
    rw [linSum_map_key, quadSum_map_key,
      linSum_congr m.linear (fun v => sL (f v)) s (fun k hk => hs k hk),
      quadSum_congr m.quadratic (fun v => sL (f v)) s (fun p hp =>
        ⟨hs p.1.1 ((dhas_iff_mem_dkeys _ _).mp (hm.edges p hp).1),
         hs p.1.2 ((dhas_iff_mem_dkeys _ _).mp (hm.edges p hp).2)⟩)]

/-- Witness for C5 at a concrete model, bijective mapping and sample. -/
theorem C5_relabel_preserves_energy_witness :
    Valid (⟨[(0, (2 : ℚ)), (1, 3)], [((0, 1), 5)],
      wrapAdj [(0, [(1, 5)]), (1, [(0, 5)])], 7, .SPIN⟩ : BQM ℕ) ∧
    (∀ v ∈ dkeys [(0, (2 : ℚ)), (1, 3)],
      dget [(0, 10), (1, 11)] v = some (v + 10)) ∧
    (∀ v ∈ dkeys [(0, (2 : ℚ)), (1, 3)], (fun _ : ℕ => true) (v + 10) = true) ∧
    (∀ u ∈ dkeys [(0, (2 : ℚ)), (1, 3)], ∀ v ∈ dkeys [(0, (2 : ℚ)), (1, 3)],
      u + 10 = v + 10 → u = v) ∧
    (∀ v ∈ dkeys [(0, (2 : ℚ)), (1, 3)],
      (fun _ : ℕ => (1 : ℚ)) (v + 10) = (fun _ : ℕ => (1 : ℚ)) v) ∧
    (∃ m', relabel_variables (⟨[(0, (2 : ℚ)), (1, 3)], [((0, 1), 5)],
        wrapAdj [(0, [(1, 5)]), (1, [(0, 5)])], 7, .SPIN⟩ : BQM ℕ)
        [(0, 10), (1, 11)] (fun _ => true) = .inl m' ∧
      energy m' (fun _ => 1)
        = energy (⟨[(0, (2 : ℚ)), (1, 3)], [((0, 1), 5)],
            wrapAdj [(0, [(1, 5)]), (1, [(0, 5)])], 7, .SPIN⟩ : BQM ℕ)
            (fun _ => 1)) :=
  ⟨⟨by decide, by decide, by decide, by decide,
      ⟨[(0, [(1, (5 : ℚ))]), (1, [(0, 5)])], rfl, rfl⟩⟩,
    by decide, by decide, by decide, by decide,
    C5_relabel_preserves_energy
      (⟨[(0, (2 : ℚ)), (1, 3)], [((0, 1), 5)],
        wrapAdj [(0, [(1, 5)]), (1, [(0, 5)])], 7, .SPIN⟩ : BQM ℕ)
      ⟨by decide, by decide, by decide, by decide,
        ⟨[(0, [(1, (5 : ℚ))]), (1, [(0, 5)])], rfl, rfl⟩⟩
      [(0, 10), (1, 11)] (fun _ => true) (fun v => v + 10)
      (by decide) (by decide) (by decide)
      (fun _ => 1) (fun _ => 1) (by decide)⟩

end ClaimRelabelEnergy

section ClaimRelabelAdj

/-- C2: the invariant fails after relabeling.  For the validly constructed
SPIN model with linear = \x7b0: 1/2, 1: 13/10\x7d, quadratic =
\x7b(0,1): -87/200\x7d, offset = 6/5, and the total injective
hashable-target mapping \x7b0 ↦ 10, 1 ↦ 11\x7d, `relabel_variables`
succeeds and the relabeled quadratic stores the bias -87/200 under
(10, 11); but the rebuilt `adj` maps each new label to a bare *set* of
neighbour labels (line 236 rebuilds `adj` with a set comprehension over
the neighbour keys), so `adj[10]` is the set \x7b11\x7d rather than the
mapping \x7b11: -87/200\x7d and no bias is retrievable from `adj`: `adj`
is not the symmetric closure of the new quadratic. -/
theorem C2_relabel_adj_drops_biases :
    (match init [(0, mkRat 1 2), (1, mkRat 13 10)]
        (some [((0, 1), mkRat (-87) 200)]) (mkRat 6 5) Vartype.SPIN with
     | .ok m =>
        (match relabel_variables m [(0, 10), (1, 11)] (fun _ : ℕ => true) with
         | .inl mr =>
            dget mr.quadratic (10, 11) = some (mkRat (-87) 200) ∧
            mr.adj = [(10, .set [11]), (11, .set [10])] ∧
            adjBias mr 10 11 = none ∧ adjBias mr 11 10 = none
         | .inr _ => False)
     | .error _ => False) :=
  ⟨by decide, by decide, by decide, by decide⟩

end ClaimRelabelAdj

section ClaimCopy

/-- C8: for a validly constructed model (constructor-accepted contents),
`copy()` succeeds — the re-run of the validating constructor accepts the
copied dicts — and `change_vartype` at the current vartype returns
exactly that copy.  The copy is value-equal to the original — equal
linear and quadratic contents, equal offset and vartype — but held in
fresh storage: the returned dict references are distinct from the
original's, the original's dict objects are untouched, and overwriting
the dict objects of the returned model leaves the original model's
`linear` and `quadratic` contents unchanged. -/
theorem C8_copy_and_same_vartype_independent [DecidableEq K]
    (σ : Store K) (r : BQMRef) (t : Vartype)
    (hedges : ∀ p ∈ σ.qdicts r.quad,
      dhas (σ.ldicts r.lin) p.1.1 = true ∧ dhas (σ.ldicts r.lin) p.1.2 = true)
    (hself : ∀ p ∈ σ.qdicts r.quad, p.1.1 ≠ p.1.2)
    (hpw : (σ.qdicts r.quad).Pairwise
      (fun p p' => p.1 ≠ p'.1 ∧ p.1 ≠ (p'.1.2, p'.1.1)))
    (hl : r.lin < σ.next) (hq : r.quad < σ.next) (ht : t = r.vartype) :
    ∃ σ' r', copyRef σ r = some (σ', r') ∧
      change_vartype_ref σ r t = some (σ', r') ∧
      (σ'.ldicts r'.lin = σ.ldicts r.lin ∧
       σ'.qdicts r'.quad = σ.qdicts r.quad ∧
       r'.offset = r.offset ∧ r'.vartype = r.vartype) ∧
      (r'.lin ≠ r.lin ∧ r'.quad ≠ r.quad) ∧
      (σ'.ldicts r.lin = σ.ldicts r.lin ∧
       σ'.qdicts r.quad = σ.qdicts r.quad) ∧
      (∀ d, (setL σ' r'.lin d).ldicts r.lin = σ.ldicts r.lin) ∧
      (∀ d, (setQ σ' r'.quad d).qdicts r.quad = σ.qdicts r.quad) := by
  subst ht
  have h1 : r.lin ≠ σ.next := by omega
  have h2 : r.quad ≠ σ.next := by omega
  have h3 : r.quad ≠ σ.next + 1 := by omega
  obtain ⟨a, hba, hinit⟩ := init_ok_construct (σ.ldicts r.lin) (σ.qdicts r.quad)
    r.offset r.vartype hedges hself hpw
  have hc : copyRef σ r =
      some (⟨σ.next + 1 + 1,
          fun x => if x = σ.next then σ.ldicts r.lin else σ.ldicts x,
          fun x => if x = σ.next + 1 then σ.qdicts r.quad else σ.qdicts x⟩,
        ⟨σ.next, σ.next + 1, r.offset, r.vartype⟩) := by
    simp only [copyRef, hinit, allocL, allocQ]
  refine ⟨_, _, hc, ?_, ⟨?_, ?_, rfl, rfl⟩, ⟨?_, ?_⟩, ⟨?_, ?_⟩, ?_, ?_⟩
  · simp only [change_vartype_ref, if_pos rfl]
    exact hc
  · simp
  · simp
  · simp
    omega
  · simp
    omega
  · simp [h1]
  · simp [h3]
  · intro d
    simp [setL, h1]
  · intro d
    simp [setQ, h1, h3]

/-- Witness for C8 at a concrete store and validly constructed model:
two variables, one quadratic pair, SPIN. -/
theorem C8_copy_and_same_vartype_independent_witness :
    ((∀ p ∈ exStore.qdicts exRef.quad,
        dhas (exStore.ldicts exRef.lin) p.1.1 = true ∧
        dhas (exStore.ldicts exRef.lin) p.1.2 = true) ∧
     (∀ p ∈ exStore.qdicts exRef.quad, p.1.1 ≠ p.1.2) ∧
     (exStore.qdicts exRef.quad).Pairwise
       (fun p p' => p.1 ≠ p'.1 ∧ p.1 ≠ (p'.1.2, p'.1.1)) ∧
     exRef.lin < exStore.next ∧ exRef.quad < exStore.next ∧
     Vartype.SPIN = exRef.vartype) ∧
    (∃ σ' r', copyRef exStore exRef = some (σ', r') ∧
      change_vartype_ref exStore exRef .SPIN = some (σ', r') ∧
      (σ'.ldicts r'.lin = exStore.ldicts exRef.lin ∧
       σ'.qdicts r'.quad = exStore.qdicts exRef.quad ∧
       r'.offset = exRef.offset ∧ r'.vartype = exRef.vartype) ∧
      (r'.lin ≠ exRef.lin ∧ r'.quad ≠ exRef.quad) ∧
      (σ'.ldicts exRef.lin = exStore.ldicts exRef.lin ∧
       σ'.qdicts exRef.quad = exStore.qdicts exRef.quad) ∧
      (∀ d, (setL σ' r'.lin d).ldicts exRef.lin = exStore.ldicts exRef.lin) ∧
      (∀ d, (setQ σ' r'.quad d).qdicts exRef.quad
          = exStore.qdicts exRef.quad)) :=
  ⟨⟨by decide, by decide, by decide, by decide, by decide, rfl⟩,
    C8_copy_and_same_vartype_independent exStore exRef .SPIN
      (by decide) (by decide) (by decide) (by decide) (by decide) rfl⟩

end ClaimCopy

end PenaltyModel
